import Mathlib

/-! filebrowser: disk cache and image service

A shallow embedding of `diskcache/file_cache.go` and `img/service.go`, with the
library routines they call (`crypto/sha1`, `encoding/hex`, `path/filepath`,
`io`) modelled as executable functions, followed by the properties proved of
them.
-/

namespace Filebrowser

/-! ## Bytes and Go strings -/

/-- A Go `[]byte`, and also a Go `string` seen as its bytes (cache keys). -/
abbrev Bytes := List UInt8

/-! ## crypto/sha1 -/

/-- Truncation to a `uint32`. -/
def u32 (x : Nat) : Nat := x % 2 ^ 32

/-- The function `bits.RotateLeft32` on a value below `2^32`. -/
def rotl32 (x k : Nat) : Nat := u32 (x <<< k) ||| (x >>> (32 - k))

/-- Bitwise complement of a `uint32` (Go `^b`). -/
def not32 (x : Nat) : Nat := x ^^^ 0xFFFFFFFF

/-- The five chaining words `h0 .. h4` of a SHA-1 digest state. -/
structure Sha1State where
  h0 : Nat
  h1 : Nat
  h2 : Nat
  h3 : Nat
  h4 : Nat
deriving DecidableEq, Repr

/-- The initial chaining values (`init0 .. init4`). -/
def sha1Init : Sha1State :=
  { h0 := 0x67452301, h1 := 0xEFCDAB89, h2 := 0x98BADCFE, h3 := 0x10325476, h4 := 0xC3D2E1F0 }

/-- One big-endian `uint32` out of four bytes. -/
def be32 (b0 b1 b2 b3 : UInt8) : Nat :=
  (b0.toNat <<< 24) ||| (b1.toNat <<< 16) ||| (b2.toNat <<< 8) ||| b3.toNat

/-- The sixteen message words of one 64-byte block. -/
def blockWords : Bytes → List Nat
  | b0 :: b1 :: b2 :: b3 :: rest => be32 b0 b1 b2 b3 :: blockWords rest
  | _ => []

/-- The message schedule, newest word first: `n` further words are appended to
the (reversed) schedule `w`, each `RotateLeft32(w[i-3] ^ w[i-8] ^ w[i-14] ^ w[i-16], 1)`. -/
def expandSchedule : Nat → List Nat → List Nat
  | 0, w => w
  | n + 1, w =>
    expandSchedule n
      (rotl32 (w.getD 2 0 ^^^ w.getD 7 0 ^^^ w.getD 13 0 ^^^ w.getD 15 0) 1 :: w)

/-- The round function and round constant of round `i`. -/
def roundFK (i b c d : Nat) : Nat × Nat :=
  if i < 20 then ((b &&& c) ||| (not32 b &&& d), 0x5A827999)
  else if i < 40 then (b ^^^ c ^^^ d, 0x6ED9EBA1)
  else if i < 60 then (((b ||| c) &&& d) ||| (b &&& c), 0x8F1BBCDC)
  else (b ^^^ c ^^^ d, 0xCA62C1D6)

/-- The eighty rounds over the schedule `ws`, starting at round `i`. -/
def sha1Rounds : List Nat → Nat → Sha1State → Sha1State
  | [], _, s => s
  | w :: ws, i, s =>
    let fk := roundFK i s.h1 s.h2 s.h3
    let t := u32 (rotl32 s.h0 5 + fk.1 + s.h4 + w + fk.2)
    sha1Rounds ws (i + 1) { h0 := t, h1 := s.h0, h2 := rotl32 s.h1 30, h3 := s.h2, h4 := s.h3 }

/-- The compression function of `blockGeneric` on one 64-byte block. -/
def sha1Block (s : Sha1State) (block : Bytes) : Sha1State :=
  let ws := (expandSchedule 64 (blockWords block).reverse).reverse
  let r := sha1Rounds ws 0 s
  { h0 := u32 (s.h0 + r.h0), h1 := u32 (s.h1 + r.h1), h2 := u32 (s.h2 + r.h2),
    h3 := u32 (s.h3 + r.h3), h4 := u32 (s.h4 + r.h4) }

/-- The function `blockGeneric`: consume `p` in 64-byte blocks (`fuel` bounds the
number of blocks). -/
def sha1Blocks : Nat → Sha1State → Bytes → Sha1State
  | 0, s, _ => s
  | fuel + 1, s, p =>
    if 64 ≤ p.length then sha1Blocks fuel (sha1Block s (p.take 64)) (p.drop 64) else s

/-- Big-endian bytes of a `uint64`. -/
def putUint64 (x : Nat) : Bytes :=
  [56, 48, 40, 32, 24, 16, 8, 0].map fun sh => UInt8.ofNat ((x >>> sh) % 256)

/-- Big-endian bytes of a `uint32`. -/
def putUint32 (x : Nat) : Bytes :=
  [24, 16, 8, 0].map fun sh => UInt8.ofNat ((x >>> sh) % 256)

/-- The padding written by `checkSum`: `0x80`, zeros up to 56 mod 64, then the
bit length as a big-endian `uint64`. -/
def sha1Padding (len : Nat) : Bytes :=
  let t := if len % 64 < 56 then 56 - len % 64 else 64 + 56 - len % 64
  (0x80 : UInt8) :: List.replicate (t - 1) 0 ++ putUint64 ((len <<< 3) % 2 ^ 64)

/-- The function `sha1.New(); Write(data); Sum(nil)`: the 20-byte SHA-1 digest. -/
def sha1Sum (data : Bytes) : Bytes :=
  let p := data ++ sha1Padding data.length
  let s := sha1Blocks (p.length / 64 + 1) sha1Init p
  putUint32 s.h0 ++ putUint32 s.h1 ++ putUint32 s.h2 ++ putUint32 s.h3 ++ putUint32 s.h4

/-! ## encoding/hex -/

/-- The constant `hextable` of `encoding/hex`. -/
def hextable : List Char := "0123456789abcdef".toList

/-- The function `hex.EncodeToString`: two characters of `hextable` for every byte,
`hextable[v>>4]` then `hextable[v&0x0f]`. -/
def hexEncodeToString (src : Bytes) : List Char :=
  src.flatMap fun v => [hextable.getD (v.toNat >>> 4) '0', hextable.getD (v.toNat &&& 0x0f) '0']

/-! ## Go errors, panics and blocking -/

/-- A Go `error` value: a sentinel made by `errors.New`, identified by its text, or
an error wrapping another one (`fmt.Errorf` with `%w`, `*os.PathError`). -/
inductive GoError where
  | new (text : String)
  | wrap (text : String) (err : GoError)
deriving DecidableEq, Repr

/-- The method `Error()`. -/
def GoError.Error : GoError → String
  | .new text => text
  | .wrap text _ => text

/-- The function `errors.Is`: `err` is `target` or wraps it. -/
def errorsIs : GoError → GoError → Bool
  | .new text, target => decide (GoError.new text = target)
  | .wrap text inner, target => decide (GoError.wrap text inner = target) || errorsIs inner target

/-- The sentinel `os.ErrNotExist`. -/
def ErrNotExist : GoError := .new "file does not exist"

/-- The ways a call does not return: a run-time panic, or a goroutine blocked for ever. -/
inductive Fault where
  | panic (msg : String)
  | deadlock
deriving DecidableEq, Repr

/-- A Go slice expression `s[lo:hi]` on a string; panics when out of range. -/
def goSlice (s : List Char) (lo hi : Nat) : Except Fault (List Char) :=
  if lo ≤ hi ∧ hi ≤ s.length then .ok ((s.take hi).drop lo)
  else .error (.panic "slice bounds out of range")

/-! ## path/filepath -/

/-- The elements of a path between its separators. -/
def splitSlash : List Char → List (List Char)
  | [] => [[]]
  | c :: cs =>
    if c = '/' then [] :: splitSlash cs
    else match splitSlash cs with
      | [] => [[c]]
      | x :: xs => (c :: x) :: xs

/-- One element pushed on the stack of cleaned elements (top first). -/
def cleanStep (rooted : Bool) (stack : List (List Char)) (elem : List Char) : List (List Char) :=
  if elem = [] ∨ elem = ['.'] then stack
  else if elem = ['.', '.'] then
    match stack with
    | top :: rest => if top = ['.', '.'] then elem :: stack else rest
    | [] => if rooted then [] else [elem]
  else elem :: stack

/-- The function `filepath.Clean` (Unix separators). -/
def filepathClean (path : List Char) : List Char :=
  let rooted := path.head? = some '/'
  let out := ((splitSlash path).foldl (cleanStep rooted) []).reverse
  let body := List.intercalate ['/'] out
  if rooted then '/' :: body else if body = [] then ['.'] else body

/-- The function `filepath.Dir`: everything up to the last separator, cleaned. -/
def filepathDir (path : String) : String :=
  String.mk (filepathClean (path.data.reverse.dropWhile (fun c => c ≠ '/')).reverse)

/-! ## FileCache.getFileName -/

/-- The method `FileCache.getFileName`. -/
def getFileName (key : Bytes) : Except Fault String := do
  let hash := hexEncodeToString (sha1Sum key)
  let a ← goSlice hash 0 1
  let b ← goSlice hash 1 3
  pure (String.mk (a ++ '/' :: b ++ '/' :: hash))

/-! ## The filesystem behind the cache (afero.Fs) -/

/-- The operations of `afero.Fs` that the cache calls, over a filesystem state `σ`
and open-file handles `File`. Every operation may change the state and may fail. -/
structure Fs (σ File : Type) where
  /-- The method `Fs.MkdirAll(path, perm)`. -/
  MkdirAll : σ → String → σ × Option GoError
  /-- The function `afero.WriteFile(fs, name, data, perm)`. -/
  WriteFile : σ → String → Bytes → σ × Option GoError
  /-- The method `Fs.Open(name)`. -/
  Open : σ → String → σ × Except GoError File
  /-- The function `ioutil.ReadAll(file)`: the bytes read and the error, if any. -/
  ReadAll : σ → File → σ × Bytes × Option GoError
  /-- The method `File.Close()`. -/
  Close : σ → File → σ × Option GoError
  /-- The method `Fs.Remove(name)`. -/
  Remove : σ → String → σ × Option GoError

/-! ## FileCache -/

/-- The struct `FileCache`. `disk` is the state of the filesystem behind `f.fs`.
`locks` is `scopedLocks.locks` together with the `sync.Once`: `none` is the nil map
before `Do` has run. `mutexes` is the heap of allocated `sync.Mutex` values
(`true` is locked); a lock is the address of its mutex. -/
structure FileCache (σ : Type) where
  disk : σ
  locks : Option (List (Bytes × Nat))
  mutexes : List Bool

/-- The constructor `New`: no lock map yet, no mutex allocated. -/
def New {σ : Type} (disk : σ) : FileCache σ :=
  { disk := disk, locks := none, mutexes := [] }

/-- The method `FileCache.getScopedLocks`: the lock of `key`, created and entered
in the map when the key has none. -/
def getScopedLocks {σ : Type} (f : FileCache σ) (key : Bytes) : FileCache σ × Nat :=
  let locks := f.locks.getD []
  match locks.lookup key with
  | some lock => ({ f with locks := some locks }, lock)
  | none =>
    let lock := f.mutexes.length
    ({ f with locks := some ((key, lock) :: locks), mutexes := f.mutexes ++ [false] }, lock)

/-- The method `Mutex.Lock` of the mutex at address `mu`, with no other goroutine
running: a locked mutex blocks for ever. -/
def mutexLock {σ : Type} (f : FileCache σ) (mu : Nat) : Except Fault (FileCache σ) :=
  match f.mutexes[mu]? with
  | some false => .ok { f with mutexes := f.mutexes.set mu true }
  | some true => .error .deadlock
  | none => .error (.panic "invalid memory address")

/-- The method `Mutex.Unlock` of the mutex at address `mu`. -/
def mutexUnlock {σ : Type} (f : FileCache σ) (mu : Nat) : Except Fault (FileCache σ) :=
  match f.mutexes[mu]? with
  | some true => .ok { f with mutexes := f.mutexes.set mu false }
  | some false => .error (.panic "sync: unlock of unlocked mutex")
  | none => .error (.panic "invalid memory address")

/-- The method `FileCache.Store`. -/
def Store {σ File : Type} (fs : Fs σ File) (f : FileCache σ) (key value : Bytes) :
    Except Fault (FileCache σ × Option GoError) := do
  let (f1, mu) := getScopedLocks f key
  let f2 ← mutexLock f1 mu
  let fileName ← getFileName key
  let (f3, ret) :=
    match fs.MkdirAll f2.disk (filepathDir fileName) with
    | (d, some err) => ({ f2 with disk := d }, some err)
    | (d, none) =>
      match fs.WriteFile d fileName value with
      | (d1, some err) => ({ f2 with disk := d1 }, some err)
      | (d1, none) => ({ f2 with disk := d1 }, none)
  let f4 ← mutexUnlock f3 mu
  pure (f4, ret)

/-- The method `FileCache.open`. -/
def open' {σ File : Type} (fs : Fs σ File) (f : FileCache σ) (key : Bytes) :
    Except Fault (FileCache σ × Option File × Bool × Option GoError) := do
  let fileName ← getFileName key
  match fs.Open f.disk fileName with
  | (d, .error err) =>
    if errorsIs err ErrNotExist then pure ({ f with disk := d }, none, false, none)
    else pure ({ f with disk := d }, none, false, some err)
  | (d, .ok file) => pure ({ f with disk := d }, some file, true, none)

/-- The method `FileCache.Load`; a nil `value` is `none`. -/
def Load {σ File : Type} (fs : Fs σ File) (f : FileCache σ) (key : Bytes) :
    Except Fault (FileCache σ × Option Bytes × Bool × Option GoError) := do
  let (f1, r, ok, err) ← open' fs f key
  if err.isSome || !ok then
    pure (f1, none, ok, err)
  else
    match r with
    | none => .error (.panic "nil pointer dereference")
    | some r =>
      let (d, value, err) := fs.ReadAll f1.disk r
      let d1 := (fs.Close d r).1
      match err with
      | some e => pure ({ f1 with disk := d1 }, none, false, some e)
      | none => pure ({ f1 with disk := d1 }, some value, true, none)

/-- The method `FileCache.Delete`. -/
def Delete {σ File : Type} (fs : Fs σ File) (f : FileCache σ) (key : Bytes) :
    Except Fault (FileCache σ × Option GoError) := do
  let (f1, mu) := getScopedLocks f key
  let f2 ← mutexLock f1 mu
  let fileName ← getFileName key
  let (f3, ret) :=
    match fs.Remove f2.disk fileName with
    | (d, some err) =>
      if !errorsIs err ErrNotExist then ({ f2 with disk := d }, some err)
      else ({ f2 with disk := d }, none)
    | (d, none) => ({ f2 with disk := d }, none)
  let f4 ← mutexUnlock f3 mu
  pure (f4, ret)

/-! ## An in-memory filesystem with POSIX semantics -/

/-- What a path of the in-memory filesystem holds. -/
inductive Node where
  | file (content : Bytes)
  | dir
deriving DecidableEq, Repr

/-- The in-memory filesystem: the nodes below the root, keyed by cleaned path. -/
structure MemFs where
  nodes : List (String × Node)
deriving DecidableEq, Repr

/-- An open file of the in-memory filesystem: its path and what it held when opened. -/
structure MemFile where
  name : String
  node : Node
deriving DecidableEq, Repr

/-- The node stored under a cleaned path. -/
def lookupNode : List (String × Node) → String → Option Node
  | [], _ => none
  | (q, n) :: rest, p => if q = p then some n else lookupNode rest p

/-- The nodes without the one stored under a cleaned path. -/
def eraseNode : List (String × Node) → String → List (String × Node)
  | [], _ => []
  | (q, n) :: rest, p => if q = p then eraseNode rest p else (q, n) :: eraseNode rest p

/-- A cleaned path. -/
def cleanPath (path : String) : String := String.mk (filepathClean path.data)

/-- The root of the filesystem, which is always a directory. -/
def isRoot (p : String) : Bool := p = "." || p = "/"

/-- The list `l` starts with the list `pre`. -/
def startsWith : List Char → List Char → Bool
  | [], _ => true
  | _ :: _, [] => false
  | a :: pre, b :: l => decide (a = b) && startsWith pre l

/-- The cleaned path `q` is a proper ancestor of the cleaned path `p`: `p` is `q/...`. -/
def isAncestor (q p : String) : Bool := startsWith (q.data ++ ['/']) p.data

/-- An ancestor of the path is a regular file: the path cannot be resolved, and
every operation on it fails with ENOTDIR. -/
def MemFs.blocked (s : MemFs) (path : String) : Bool :=
  s.nodes.any fun e =>
    match e.2 with
    | .file _ => isAncestor e.1 (cleanPath path)
    | .dir => false

/-- What a path holds (`Stat`), the root included; `none` when the path holds
nothing or cannot be resolved. -/
def MemFs.stat (s : MemFs) (path : String) : Option Node :=
  if isRoot (cleanPath path) then some .dir
  else if s.blocked path then none
  else lookupNode s.nodes (cleanPath path)

/-- A `*os.PathError`. -/
def pathError (op path : String) (err : GoError) : GoError :=
  .wrap (op ++ " " ++ path ++ ": " ++ err.Error) err

/-- The error of an operation on a path that `stat` does not find: ENOTDIR when an
ancestor is a regular file, a not-exist error otherwise. -/
def MemFs.statError (s : MemFs) (op path : String) : GoError :=
  if s.blocked path then pathError op path (.new "not a directory")
  else pathError op path ErrNotExist

/-- The error that the ancestors of `path` give to an operation creating `path`, if
any: none may be a regular file, and the parent must exist and be a directory. -/
def MemFs.parentError (s : MemFs) (op path : String) : Option GoError :=
  if s.blocked path then some (pathError op path (.new "not a directory"))
  else
    match s.stat (filepathDir (cleanPath path)) with
    | some .dir => none
    | some (.file _) => some (pathError op path (.new "not a directory"))
    | none => some (pathError op path ErrNotExist)

/-- The method `Mkdir`. -/
def MemFs.Mkdir (s : MemFs) (path : String) : MemFs × Option GoError :=
  match s.stat path with
  | some _ => (s, some (pathError "mkdir" path (.new "file already exists")))
  | none =>
    match s.parentError "mkdir" path with
    | some err => (s, some err)
    | none => ({ nodes := (cleanPath path, .dir) :: s.nodes }, none)

/-- The path without its last element and the separator before it (`path[:j-1]` in
`os.MkdirAll`), or `none` when there is no parent to create (`j ≤ 1`). -/
def parentOfLast (path : List Char) : Option (List Char) :=
  let upto := ((path.reverse.dropWhile (fun c => c = '/')).dropWhile (fun c => c ≠ '/')).reverse
  if 1 < upto.length then some (upto.take (upto.length - 1)) else none

/-- The function `os.MkdirAll`; `fuel` bounds the depth of the path. -/
def MemFs.mkdirAllAux : Nat → MemFs → String → MemFs × Option GoError
  | 0, s, path => (s, some (pathError "mkdir" path (.new "file name too long")))
  | fuel + 1, s, path =>
    match s.stat path with
    | some .dir => (s, none)
    | some (.file _) => (s, some (pathError "mkdir" path (.new "not a directory")))
    | none =>
      let made : MemFs × Option GoError :=
        match parentOfLast path.data with
        | some parent => MemFs.mkdirAllAux fuel s (String.mk parent)
        | none => (s, none)
      match made with
      | (s1, some err) => (s1, some err)
      | (s1, none) =>
        match s1.Mkdir path with
        | (s2, some err) =>
          match s2.stat path with
          | some .dir => (s2, none)
          | _ => (s2, some err)
        | (s2, none) => (s2, none)

/-- The method `MkdirAll`. -/
def MemFs.MkdirAll (s : MemFs) (path : String) : MemFs × Option GoError :=
  MemFs.mkdirAllAux (path.length + 1) s path

/-- The function `afero.WriteFile`: create or truncate the file, write the data. -/
def MemFs.WriteFile (s : MemFs) (path : String) (data : Bytes) : MemFs × Option GoError :=
  match s.stat path with
  | some .dir => (s, some (pathError "open" path (.new "is a directory")))
  | some (.file _) =>
    ({ nodes := (cleanPath path, .file data) :: eraseNode s.nodes (cleanPath path) }, none)
  | none =>
    match s.parentError "open" path with
    | some err => (s, some err)
    | none => ({ nodes := (cleanPath path, .file data) :: s.nodes }, none)

/-- The method `Open`. -/
def MemFs.Open (s : MemFs) (path : String) : MemFs × Except GoError MemFile :=
  match s.stat path with
  | none => (s, .error (s.statError "open" path))
  | some node => (s, .ok { name := cleanPath path, node := node })

/-- The function `ioutil.ReadAll` on an open file. -/
def MemFs.ReadAll (s : MemFs) (file : MemFile) : MemFs × Bytes × Option GoError :=
  match file.node with
  | .file content => (s, content, none)
  | .dir => (s, [], some (pathError "read" file.name (.new "is a directory")))

/-- The method `Close`. -/
def MemFs.Close (s : MemFs) (_file : MemFile) : MemFs × Option GoError := (s, none)

/-- The method `Remove`: a file, or a directory without entries. -/
def MemFs.Remove (s : MemFs) (path : String) : MemFs × Option GoError :=
  if isRoot (cleanPath path) then (s, some (pathError "remove" path (.new "invalid argument")))
  else
    match s.stat path with
    | none => (s, some (s.statError "remove" path))
    | some (.file _) => ({ nodes := eraseNode s.nodes (cleanPath path) }, none)
    | some .dir =>
      if s.nodes.any (fun e => filepathDir e.1 = cleanPath path) then
        (s, some (pathError "remove" path (.new "directory not empty")))
      else ({ nodes := eraseNode s.nodes (cleanPath path) }, none)

/-- The in-memory filesystem as an `afero.Fs`. -/
def memFs : Fs MemFs MemFile :=
  { MkdirAll := MemFs.MkdirAll, WriteFile := MemFs.WriteFile, Open := MemFs.Open,
    ReadAll := MemFs.ReadAll, Close := MemFs.Close, Remove := MemFs.Remove }

/-- The empty in-memory filesystem. -/
def MemFs.empty : MemFs := { nodes := [] }

/-! ## io: readers, bytes.Buffer, TeeReader, MultiReader -/

/-- The sentinel `io.EOF`. -/
def EOF : GoError := .new "EOF"

/-- An input stream behind an `io.Reader`: the chunks it still delivers, one `Read`
never returning more than the next chunk (short reads), and the error it returns
once they are used up (`io.EOF` for a stream that simply ends). -/
structure Stream where
  chunks : List Bytes
  final : GoError
deriving DecidableEq, Repr

/-- All the bytes a stream still delivers. -/
def Stream.bytes (s : Stream) : Bytes := s.chunks.flatten

/-- The method `Read(p)` of a stream with `len(p) = n`: the stream after the call,
the bytes read and the error. -/
def Stream.Read (s : Stream) (n : Nat) : Stream × Bytes × Option GoError :=
  match s.chunks with
  | [] => (s, [], some s.final)
  | c :: cs =>
    if c.length ≤ n then ({ s with chunks := cs }, c, none)
    else ({ s with chunks := c.drop n :: cs }, c.take n, none)

/-- A `bytes.Buffer`: its unread bytes. -/
structure Buffer where
  buf : Bytes
deriving DecidableEq, Repr

/-- The method `Buffer.Write`: append. -/
def Buffer.Write (b : Buffer) (p : Bytes) : Buffer := { buf := b.buf ++ p }

/-- The method `Buffer.Read(p)` with `len(p) = n`. -/
def Buffer.Read (b : Buffer) (n : Nat) : Buffer × Bytes × Option GoError :=
  if b.buf = [] then
    if n = 0 then (b, [], none) else (b, [], some EOF)
  else ({ buf := b.buf.drop n }, b.buf.take n, none)

/-- The reader `io.TeeReader(r, w)`. -/
structure TeeReader where
  r : Stream
  w : Buffer
deriving DecidableEq, Repr

/-- The method `teeReader.Read`: read from `r`, write what was read to `w`. -/
def TeeReader.Read (t : TeeReader) (n : Nat) : TeeReader × Bytes × Option GoError :=
  match t.r.Read n with
  | (r1, bs, err) =>
    if 0 < bs.length then ({ r := r1, w := t.w.Write bs }, bs, err)
    else ({ r := r1, w := t.w }, bs, err)

/-- The two kinds of reader handed to `io.MultiReader` by `detectFormat`. -/
inductive AnyReader where
  | buffer (b : Buffer)
  | stream (s : Stream)
deriving DecidableEq, Repr

/-- The method `Read` of either reader. -/
def AnyReader.Read (r : AnyReader) (n : Nat) : AnyReader × Bytes × Option GoError :=
  match r with
  | .buffer b => match b.Read n with
    | (b1, bs, err) => (.buffer b1, bs, err)
  | .stream s => match s.Read n with
    | (s1, bs, err) => (.stream s1, bs, err)

/-- The method `multiReader.Read` over the readers still in the list: a reader that
returns `io.EOF` is dropped, and the call goes on to the next one when it got no
byte. -/
def multiRead : List AnyReader → Nat → List AnyReader × Bytes × Option GoError
  | [], _ => ([], [], some EOF)
  | r :: rs, n =>
    match r.Read n with
    | (r1, bs, err) =>
      let readers := if err = some EOF then rs else r1 :: rs
      if 0 < bs.length ∨ err ≠ some EOF then
        (readers, bs, if err = some EOF ∧ 0 < readers.length then none else err)
      else multiRead rs n

/-- The function `io.ReadAll` on a multi-reader, every `Read` asking for `size`
bytes; `none` when `fuel` calls of `Read` were not enough. -/
def multiReadAll : Nat → Nat → List AnyReader → Option (List AnyReader × Bytes × Option GoError)
  | 0, _, _ => none
  | fuel + 1, size, rs =>
    match multiRead rs size with
    | (rs1, bs, some err) => some (rs1, bs, if err = EOF then none else some err)
    | (rs1, bs, none) =>
      match multiReadAll fuel size rs1 with
      | none => none
      | some (rs2, rest, err) => some (rs2, bs ++ rest, err)

/-- The state of the input stream behind a multi-reader built from it: the stream
while the multi-reader still holds it, used up once it was dropped. -/
def remainingInput (final : GoError) : List AnyReader → Stream
  | [] => { chunks := [], final := final }
  | .stream s :: _ => s
  | .buffer _ :: rs => remainingInput final rs

/-! ## The image service -/

/-- The sentinel `ErrUnsupportedFormat`. -/
def ErrUnsupportedFormat : GoError := .new "unsupported image format"

/-- The type `Format` (`type Format int`). -/
abbrev Format := Int

/-- Modelled from the spec: the generated enum file (`service_enum.go`) is missing;
the enum lists jpeg, png, gif, tiff, bmp in this order and go-enum numbers the
values from 0. -/
def FormatJpeg : Format := 0

/-- Modelled from the spec: second value of the `Format` enum. -/
def FormatPng : Format := 1

/-- Modelled from the spec: third value of the `Format` enum. -/
def FormatGif : Format := 2

/-- Modelled from the spec: fourth value of the `Format` enum. -/
def FormatTiff : Format := 3

/-- Modelled from the spec: fifth value of the `Format` enum. -/
def FormatBmp : Format := 4

/-- Modelled from the spec: the generated `ParseFormat` is missing; it maps the name
of each value of the closed enumeration to the value and fails for any other name. -/
def ParseFormat (name : String) : Except GoError Format :=
  if name = "jpeg" then .ok FormatJpeg
  else if name = "png" then .ok FormatPng
  else if name = "gif" then .ok FormatGif
  else if name = "tiff" then .ok FormatTiff
  else if name = "bmp" then .ok FormatBmp
  else .error (.new (name ++ " is not a valid Format"))

/-- The type `imaging.Format` (`type Format int`). -/
abbrev ImagingFormat := Int

/-- The constant `imaging.JPEG`. -/
def imagingJPEG : ImagingFormat := 0

/-- The constant `imaging.PNG`. -/
def imagingPNG : ImagingFormat := 1

/-- The constant `imaging.GIF`. -/
def imagingGIF : ImagingFormat := 2

/-- The constant `imaging.TIFF`. -/
def imagingTIFF : ImagingFormat := 3

/-- The constant `imaging.BMP`. -/
def imagingBMP : ImagingFormat := 4

/-- The method `Format.toImaging`. -/
def Format.toImaging (x : Format) : ImagingFormat :=
  if x = FormatJpeg then imagingJPEG
  else if x = FormatPng then imagingPNG
  else if x = FormatGif then imagingGIF
  else if x = FormatTiff then imagingTIFF
  else if x = FormatBmp then imagingBMP
  else imagingJPEG

/-- The type `Quality` (`type Quality int`). -/
abbrev Quality := Int

/-- Modelled from the spec: first value of the generated `Quality` enum. -/
def QualityHigh : Quality := 0

/-- Modelled from the spec: second value of the generated `Quality` enum. -/
def QualityMedium : Quality := 1

/-- Modelled from the spec: third value of the generated `Quality` enum. -/
def QualityLow : Quality := 2

/-- The resampling filters of `imaging` that the service selects. -/
inductive ResampleFilter where
  | Lanczos
  | Box
  | NearestNeighbor
deriving DecidableEq, Repr

/-- The method `Quality.resampleFilter`. -/
def Quality.resampleFilter (x : Quality) : ResampleFilter :=
  if x = QualityHigh then .Lanczos
  else if x = QualityMedium then .Box
  else if x = QualityLow then .NearestNeighbor
  else .Box

/-- The type `ResizeMode` (`type ResizeMode int`). -/
abbrev ResizeMode := Int

/-- Modelled from the spec: first value of the generated `ResizeMode` enum. -/
def ResizeModeFit : ResizeMode := 0

/-- Modelled from the spec: second value of the generated `ResizeMode` enum. -/
def ResizeModeFill : ResizeMode := 1

/-- The method `Service.FormatFromExtension`, over the lookup
`imaging.FormatFromExtension` of the imaging library. -/
def FormatFromExtension (lookup : String → Except GoError ImagingFormat) (ext : String) :
    Format × Option GoError :=
  match lookup ext with
  | .error _ => (-1, some ErrUnsupportedFormat)
  | .ok format =>
    if format = imagingJPEG then (FormatJpeg, none)
    else if format = imagingPNG then (FormatPng, none)
    else if format = imagingGIF then (FormatGif, none)
    else if format = imagingTIFF then (FormatTiff, none)
    else if format = imagingBMP then (FormatBmp, none)
    else (-1, some ErrUnsupportedFormat)

/-- The struct `resizeConfig`. -/
structure resizeConfig where
  format : Format
  resizeMode : ResizeMode
  quality : Quality
deriving DecidableEq, Repr

/-- The type `Option` of the image service (`func(*resizeConfig)`). -/
abbrev ResizeOption := resizeConfig → resizeConfig

/-- The option `WithFormat`. -/
def WithFormat (format : Format) : ResizeOption := fun config => { config with format := format }

/-- The option `WithMode`. -/
def WithMode (mode : ResizeMode) : ResizeOption := fun config => { config with resizeMode := mode }

/-- The option `WithQuality`. -/
def WithQuality (quality : Quality) : ResizeOption := fun config => { config with quality := quality }

/-- A header decoder such as `image.DecodeConfig`, seen from the reader it is given:
it returns its result (the name of the format, or an error), or calls `Read` with
a buffer of `n` bytes and goes on according to the bytes and the error it got. -/
inductive Decoder where
  | done (result : Except GoError String)
  | read (n : Nat) (next : Bytes → Option GoError → Decoder)

/-- A decoder run against a `TeeReader`: the reader afterwards and the result. -/
def Decoder.run : Decoder → TeeReader → TeeReader × Except GoError String
  | .done result, t => (t, result)
  | .read n next, t =>
    match t.Read n with
    | (t1, bs, err) => (next bs err).run t1

/-- The imaging library as the service uses it, over a type `Image` of decoded
images: `image.DecodeConfig`, `imaging.Decode` reading from the multi-reader,
`imaging.Fill`, `imaging.Fit`, and `imaging.Encode`, which gives the bytes it
wrote to the output and its error. -/
structure Codec (Image : Type) where
  decodeConfig : Decoder
  decode : List AnyReader → List AnyReader × Except GoError Image
  fill : Image → Int → Int → ResampleFilter → Image
  fit : Image → Int → Int → ResampleFilter → Image
  encode : Image → ImagingFormat → Bytes × Option GoError

/-- The method `Service.detectFormat`: the input stream afterwards, and the format
with the reader `io.MultiReader(buf, in)`, or the error. -/
def detectFormat (decodeConfig : Decoder) (inp : Stream) :
    Stream × Except GoError (Format × List AnyReader) :=
  let buf : Buffer := { buf := [] }
  let r : TeeReader := { r := inp, w := buf }
  match decodeConfig.run r with
  | (r1, .error err) =>
    (r1.r, .error (.wrap (err.Error ++ ": " ++ ErrUnsupportedFormat.Error) ErrUnsupportedFormat))
  | (r1, .ok imgFormat) =>
    match ParseFormat imgFormat with
    | .error _ => (r1.r, .error ErrUnsupportedFormat)
    | .ok format => (r1.r, .ok (format, [.buffer r1.w, .stream r1.r]))

/-- What the semaphore was asked to do, in order. -/
inductive SemEvent where
  | acquire (n : Nat)
  | release (n : Nat)
deriving DecidableEq, Repr

/-- The semaphore of `marusama/semaphore`: its limit, the slots held, and the
record of the acquisitions and releases that succeeded. -/
structure Semaphore where
  limit : Nat
  count : Nat
  log : List SemEvent
deriving DecidableEq, Repr

/-- A `context.Context` as a blocking call sees it: `err` is `ctx.Err()` when the
call starts, `later` what `ctx.Err()` becomes while the call waits (a deadline),
if anything. -/
structure Context where
  err : Option GoError
  later : Option GoError
deriving DecidableEq, Repr

/-- The method `Semaphore.Acquire(ctx, n)` with no other goroutine running: a done
context fails first, a free slot is taken, and a full semaphore waits until the
context is done, for ever if it never is. -/
def Semaphore.Acquire (s : Semaphore) (ctx : Context) (n : Nat) :
    Except Fault (Semaphore × Option GoError) :=
  if n = 0 then .error (.panic "n must be positive number")
  else
    match ctx.err with
    | some err => .ok (s, some err)
    | none =>
      if s.count + n ≤ s.limit then
        .ok ({ s with count := s.count + n, log := s.log ++ [.acquire n] }, none)
      else
        match ctx.later with
        | some err => .ok (s, some err)
        | none => .error .deadlock

/-- The method `Semaphore.Release(n)`. -/
def Semaphore.Release (s : Semaphore) (n : Nat) : Except Fault Semaphore :=
  if n = 0 then .error (.panic "n must be positive number")
  else if s.count < n then .error (.panic "semaphore release without acquire")
  else .ok { s with count := s.count - n, log := s.log ++ [.release n] }

/-- The struct `Service`. -/
structure Service where
  sem : Semaphore
deriving DecidableEq, Repr

/-- The constructor `New` of the image service. -/
def Service.New (workers : Nat) : Service := { sem := { limit := workers, count := 0, log := [] } }

/-- The body of `Service.Resize` between the acquisition and the deferred release:
the input stream and the output afterwards, and the error returned. -/
def resizeBody {Image : Type} (codec : Codec Image) (inp : Stream) (width height : Int)
    (out : Bytes) (options : List ResizeOption) : Stream × Bytes × Option GoError :=
  match detectFormat codec.decodeConfig inp with
  | (inp1, .error err) => (inp1, out, some err)
  | (_, .ok (format, wrappedReader)) =>
    let config := options.foldl (fun config option => option config)
      { format := format, resizeMode := ResizeModeFit, quality := QualityMedium }
    match codec.decode wrappedReader with
    | (rs, .error err) => (remainingInput inp.final rs, out, some err)
    | (rs, .ok img) =>
      let img1 :=
        if config.resizeMode = ResizeModeFill then
          codec.fill img width height config.quality.resampleFilter
        else codec.fit img width height config.quality.resampleFilter
      match codec.encode img1 config.format.toImaging with
      | (written, err) => (remainingInput inp.final rs, out ++ written, err)

/-- The method `Service.Resize`: the service, the input stream and the output after
the call, and the error returned. -/
def Resize {Image : Type} (codec : Codec Image) (s : Service) (ctx : Context) (inp : Stream)
    (width height : Int) (out : Bytes) (options : List ResizeOption) :
    Except Fault (Service × Stream × Bytes × Option GoError) := do
  match ← s.sem.Acquire ctx 1 with
  | (sem1, some err) => pure ({ sem := sem1 }, inp, out, some err)
  | (sem1, none) =>
    let (inp1, out1, ret) := resizeBody codec inp width height out options
    let sem2 ← sem1.Release 1
    pure ({ sem := sem2 }, inp1, out1, ret)

/-! ## The lookup of the imaging library -/

/-- The function `strings.ToLower` on the characters whose lower case is an ASCII
letter (the upper-case ASCII letters, U+0130 and U+212A); no other character can
become part of an ASCII key. -/
def goToLower (c : Char) : Char :=
  if c = Char.ofNat 0x130 then 'i' else if c = Char.ofNat 0x212A then 'k' else c.toLower

/-- The table `formatExts` of the imaging library. -/
def formatExts : List (String × ImagingFormat) :=
  [("jpg", imagingJPEG), ("jpeg", imagingJPEG), ("png", imagingPNG), ("gif", imagingGIF),
   ("tif", imagingTIFF), ("tiff", imagingTIFF), ("bmp", imagingBMP)]

/-- The function `imaging.FormatFromExtension`: the extension without its leading
dot, in lower case, looked up in `formatExts`. -/
def imagingFormatFromExtension (ext : String) : Except GoError ImagingFormat :=
  let trimmed := match ext.data with
    | '.' :: rest => rest
    | cs => cs
  match formatExts.lookup (String.mk (trimmed.map goToLower)) with
  | some f => .ok f
  | none => .error (.new "imaging: unsupported image format")

/-! ## SHA-1 as FIPS 180-4 defines it -/

/-- Modelled from the spec: `Ch(x, y, z)` of FIPS 180-4, section 4.1.1. -/
def fipsCh (x y z : Nat) : Nat := (x &&& y) ^^^ ((x ^^^ 0xFFFFFFFF) &&& z)

/-- Modelled from the spec: `Parity(x, y, z)` of FIPS 180-4, section 4.1.1. -/
def fipsParity (x y z : Nat) : Nat := x ^^^ y ^^^ z

/-- Modelled from the spec: `Maj(x, y, z)` of FIPS 180-4, section 4.1.1. -/
def fipsMaj (x y z : Nat) : Nat := (x &&& y) ^^^ (x &&& z) ^^^ (y &&& z)

/-- Modelled from the spec: the function `f_t` of FIPS 180-4, section 4.1.1. -/
def fipsF (t x y z : Nat) : Nat :=
  if t ≤ 19 then fipsCh x y z
  else if t ≤ 39 then fipsParity x y z
  else if t ≤ 59 then fipsMaj x y z
  else fipsParity x y z

/-- Modelled from the spec: the constant `K_t` of FIPS 180-4, section 4.2.1. -/
def fipsK (t : Nat) : Nat :=
  if t ≤ 19 then 0x5a827999
  else if t ≤ 39 then 0x6ed9eba1
  else if t ≤ 59 then 0x8f1bbcdc
  else 0xca62c1d6

/-- Modelled from the spec: the padded message of FIPS 180-4, section 5.1.1, in
bytes: the bit `1` and `k` zero bits, `k` the smallest solution of
`l + 1 + k = 448 (mod 512)`, are the byte `0x80` and the smallest number of zero
bytes that brings the length to 56 modulo 64; then the length `l` in bits as a
64-bit big-endian number. -/
def fipsPad (M : Bytes) : Bytes :=
  let zeros := ((List.range 64).find? fun z => (M.length + 1 + z) % 64 = 56).getD 0
  M ++ [0x80] ++ List.replicate zeros 0
    ++ (List.range 8).map fun i => UInt8.ofNat (8 * M.length / 256 ^ (7 - i) % 256)

/-- Modelled from the spec: the 32-bit word of the padded message at byte `k`,
big-endian (FIPS 180-4, section 3.1). -/
def fipsWord (p : Bytes) (k : Nat) : Nat :=
  (p.getD k 0).toNat * 2 ^ 24 + (p.getD (k + 1) 0).toNat * 2 ^ 16
    + (p.getD (k + 2) 0).toNat * 2 ^ 8 + (p.getD (k + 3) 0).toNat

/-- Modelled from the spec: the sixteen words `M_0 .. M_15` of the `i`-th 512-bit block
(FIPS 180-4, section 5.2.1), blocks counted from 0. -/
def fipsBlock (p : Bytes) (i : Nat) : List Nat :=
  (List.range 16).map fun j => fipsWord p (64 * i + 4 * j)

/-- Modelled from the spec: the message schedule of FIPS 180-4, section 6.1.2, step 1:
`W_t = ROTL^1(W_(t-3) xor W_(t-8) xor W_(t-14) xor W_(t-16))` appended `n` times to
the words `W_0 .. W_(t-1)`. -/
def fipsSchedule : Nat → List Nat → List Nat
  | 0, W => W
  | n + 1, W =>
    fipsSchedule n
      (W ++ [rotl32 (W.getD (W.length - 3) 0 ^^^ W.getD (W.length - 8) 0
        ^^^ W.getD (W.length - 14) 0 ^^^ W.getD (W.length - 16) 0) 1])

/-- Modelled from the spec: round `t` on the working variables `(a, b, c, d, e)`
(FIPS 180-4, section 6.1.2, step 3). -/
def fipsRound (W : List Nat) (v : Nat × Nat × Nat × Nat × Nat) (t : Nat) :
    Nat × Nat × Nat × Nat × Nat :=
  let T := (rotl32 v.1 5 + fipsF t v.2.1 v.2.2.1 v.2.2.2.1 + v.2.2.2.2 + fipsK t + W.getD t 0)
    % 2 ^ 32
  (T, v.1, rotl32 v.2.1 30, v.2.2.1, v.2.2.2.1)

/-- Modelled from the spec: the hash value after one more block (FIPS 180-4,
section 6.1.2, steps 1 to 4). -/
def fipsCompress (H : Nat × Nat × Nat × Nat × Nat) (M : List Nat) :
    Nat × Nat × Nat × Nat × Nat :=
  let W := fipsSchedule 64 M
  let v := (List.range 80).foldl (fipsRound W) H
  ((v.1 + H.1) % 2 ^ 32, (v.2.1 + H.2.1) % 2 ^ 32, (v.2.2.1 + H.2.2.1) % 2 ^ 32,
    (v.2.2.2.1 + H.2.2.2.1) % 2 ^ 32, (v.2.2.2.2 + H.2.2.2.2) % 2 ^ 32)

/-- Modelled from the spec: the four bytes of a 32-bit word, big-endian. -/
def fipsBytes (x : Nat) : Bytes :=
  (List.range 4).map fun i => UInt8.ofNat (x / 256 ^ (3 - i) % 256)

/-- Modelled from the spec: the SHA-1 message digest of FIPS 180-4, section 6.1: the
initial hash value of section 5.3.1, one compression for each 512-bit block of the
padded message, and the five words of the last hash value in order. -/
def sha1Fips (M : Bytes) : Bytes :=
  let p := fipsPad M
  let H := (List.range (p.length / 64)).foldl (fun H i => fipsCompress H (fipsBlock p i))
    (0x67452301, 0xefcdab89, 0x98badcfe, 0x10325476, 0xc3d2e1f0)
  fipsBytes H.1 ++ fipsBytes H.2.1 ++ fipsBytes H.2.2.1 ++ fipsBytes H.2.2.2.1
    ++ fipsBytes H.2.2.2.2


/-- The five words of a digest state, in order. -/
def Sha1State.words (s : Sha1State) : Nat × Nat × Nat × Nat × Nat := (s.h0, s.h1, s.h2, s.h3, s.h4)

/-! ## Auxiliary definitions for the statements -/

/-- The path that `getFileName` returns for a key, in closed form. -/
def keyPath (key : Bytes) : String :=
  String.mk ((hexEncodeToString (sha1Sum key)).take 1 ++ '/' ::
    ((hexEncodeToString (sha1Sum key)).take 3).drop 1 ++ '/' ::
      hexEncodeToString (sha1Sum key))

/-- A cache at rest: no mutex is held, and every lock of the map is an allocated
mutex. Every state between two calls is of this kind. -/
def FileCache.Idle {σ : Type} (f : FileCache σ) : Prop :=
  (∀ b ∈ f.mutexes, b = false) ∧ ∀ e ∈ f.locks.getD [], e.2 < f.mutexes.length

instance {σ : Type} (f : FileCache σ) : Decidable f.Idle := by
  unfold FileCache.Idle
  infer_instance

/-- A sequence of `getScopedLocks` calls, one for each key in order: the cache
afterwards and the locks returned. -/
def getScopedLocksSeq {σ : Type} (f : FileCache σ) : List Bytes → FileCache σ × List Nat
  | [] => (f, [])
  | key :: keys =>
    match getScopedLocks f key with
    | (f1, lock) =>
      match getScopedLocksSeq f1 keys with
      | (f2, locks) => (f2, lock :: locks)

/-- The lock map of a cache at rest gives different keys different mutexes. -/
def FileCache.Distinct {σ : Type} (f : FileCache σ) : Prop :=
  ∀ k1 k2 a, (f.locks.getD []).lookup k1 = some a → (f.locks.getD []).lookup k2 = some a → k1 = k2

/-- What `io.ReadAll` gets from a list of readers: the bytes of the readers in
order, up to the end or to the first stream that ends in an error other than
`io.EOF`, and that error. -/
def readersResult : List AnyReader → Bytes × Option GoError
  | [] => ([], none)
  | .buffer b :: rs => (b.buf ++ (readersResult rs).1, (readersResult rs).2)
  | .stream s :: rs =>
    if s.final = EOF then (s.bytes ++ (readersResult rs).1, (readersResult rs).2)
    else (s.bytes, some s.final)

/-- The number of `Read` calls that surely use up a list of readers: one for each
byte and each chunk they hold. -/
def readersSize : List AnyReader → Nat
  | [] => 0
  | .buffer b :: rs => b.buf.length + readersSize rs
  | .stream s :: rs => s.bytes.length + s.chunks.length + readersSize rs

/-- The eight bytes of the PNG signature. -/
def pngSignature : Bytes := [137, 80, 78, 71, 13, 10, 26, 10]

/-- One bit of the CRC-32 register (IEEE polynomial, reflected). -/
def crc32Shift (c : Nat) : Nat := if c % 2 = 1 then (c >>> 1) ^^^ 0xEDB88320 else c >>> 1

/-- The CRC-32 register after one more byte. -/
def crc32Byte (crc : Nat) (b : UInt8) : Nat := crc32Shift^[8] (crc ^^^ b.toNat)

/-- The function `crc32.ChecksumIEEE`. -/
def crc32IEEE (data : Bytes) : Nat := data.foldl crc32Byte 0xFFFFFFFF ^^^ 0xFFFFFFFF

/-- The big-endian `uint32` in the first four bytes. -/
def beUint32 : Bytes → Nat
  | b0 :: b1 :: b2 :: b3 :: _ => be32 b0 b1 b2 b3
  | _ => 0

/-- The bit depths and colour types that `png.parseIHDR` accepts and that have no
palette: grey (0), true colour (2), grey with alpha (4), true colour with alpha (6). -/
def pngColourOk (depth colour : Nat) : Bool :=
  decide (((depth = 1 ∨ depth = 2 ∨ depth = 4) ∧ colour = 0) ∨
    ((depth = 8 ∨ depth = 16) ∧ (colour = 0 ∨ colour = 2 ∨ colour = 4 ∨ colour = 6)))

/-- The checks of `png.DecodeConfig` on the first 33 bytes of a PNG without palette:
the signature, an `IHDR` chunk of length 13, compression and filter method 0,
interlace method 0 or 1, positive `int32` dimensions whose product times 8 does not
overflow, an accepted colour model, and the CRC of the chunk. -/
def pngHeaderOk (b : Bytes) : Bool :=
  let ihdr := (b.drop 16).take 13
  let w := beUint32 ihdr
  let h := beUint32 (ihdr.drop 4)
  decide (33 ≤ b.length) && decide (b.take 8 = pngSignature) &&
    decide (beUint32 (b.drop 8) = 13) && decide ((b.drop 12).take 4 = [73, 72, 68, 82]) &&
    decide ((ihdr.getD 10 0).toNat = 0) && decide ((ihdr.getD 11 0).toNat = 0) &&
    decide ((ihdr.getD 12 0).toNat ≤ 1) &&
    decide (0 < w ∧ w < 2 ^ 31 ∧ 0 < h ∧ h < 2 ^ 31 ∧ w * h < 2 ^ 60) &&
    pngColourOk (ihdr.getD 8 0).toNat (ihdr.getD 9 0).toNat &&
    decide (beUint32 (b.drop 29) = crc32IEEE ((b.drop 12).take 17))

/-- The sentinel `io.ErrNoProgress`. -/
def ErrNoProgress : GoError := .new "multiple Read calls return no data or error"

/-- The sentinel `image.ErrFormat`. -/
def ErrFormat : GoError := .new "image: unknown format"

/-- The sentinel `io.ErrUnexpectedEOF`. -/
def ErrUnexpectedEOF : GoError := .new "unexpected EOF"

/-- The buffered reader under `image.DecodeConfig`: read into the free part of its
4096-byte buffer until `need` bytes are buffered, then go on with `next`; go on with
`fail` on an error of the reader, or once `empties` reads in a row brought nothing.
`fuel` bounds the number of reads. -/
def bufferedRead (need : Nat) (next : Bytes → Decoder) (fail : GoError → Decoder) :
    Nat → Nat → Bytes → Decoder
  | 0, _, _ => fail ErrNoProgress
  | fuel + 1, empties, buffered =>
    if need ≤ buffered.length then next buffered
    else if empties = 0 then fail ErrNoProgress
    else .read (4096 - buffered.length) fun bs err =>
      match err with
      | some e => fail e
      | none =>
        if bs = [] then bufferedRead need next fail fuel (empties - 1) buffered
        else bufferedRead need next fail fuel 100 (buffered ++ bs)

/-- The header decoder `image.DecodeConfig` on PNG streams, as far as it is
modelled: through its buffered reader it gets the 8 bytes of the signature (without
them the format is unknown), then the 33 bytes that end with the CRC of `IHDR` (a
stream that ends before is an unexpected EOF), and reports `"png"` when
`pngHeaderOk` holds. It reports `"png"` only where the library does, having read the
same chunks of the stream (for chunks of at most 4064 bytes, which fit the free part
of the buffer: the library too reads a chunk only when it needs a byte it has not
buffered, up to the 33rd). Where the library would go on (a palette, a first chunk
other than `IHDR`, another registered format, more than 100 empty reads after the
signature) this model reports an error. -/
def pngDecodeConfig : Decoder :=
  bufferedRead 8
    (fun b =>
      if b.take 8 = pngSignature then
        bufferedRead 33
          (fun b1 =>
            if pngHeaderOk b1 then .done (.ok "png")
            else .done (.error (.new "png: invalid format")))
          (fun e => .done (.error (if e = EOF then ErrUnexpectedEOF else e)))
          3400 100 b
      else .done (.error ErrFormat))
    (fun _ => .done (.error ErrFormat))
    3400 100 []

/-- A complete PNG file: one grey pixel, 8 bits deep (signature, `IHDR`, `IDAT`,
`IEND`, 67 bytes). -/
def onePixelPng : Bytes :=
  [137, 80, 78, 71, 13, 10, 26, 10,
   0, 0, 0, 13, 73, 72, 68, 82, 0, 0, 0, 1, 0, 0, 0, 1, 8, 0, 0, 0, 0, 58, 126, 155, 85,
   0, 0, 0, 10, 73, 68, 65, 84, 120, 156, 99, 96, 0, 0, 0, 2, 0, 1, 72, 175, 164, 113,
   0, 0, 0, 0, 73, 69, 78, 68, 174, 66, 96, 130]

/-- The imaging library on the file `onePixelPng`, the only image this codec knows.
An image is `true` for the decoded pixel and what resizing makes of it, `false` for
the empty image that `imaging.Fit` and `imaging.Fill` return for a non-positive
width or height. Decoding reads the readers to their end and refuses anything but
the file (the library stops reading after the `IEND` chunk, which is the end of this
file, and accepts other images, which this codec does not know); `written` is what
`imaging.Encode` writes for the image in each of its five formats, with a nil error;
encoding the empty image is not modelled and refused. -/
def onePixelCodec (written : ImagingFormat → Bytes) : Codec Bool :=
  { decodeConfig := pngDecodeConfig
    decode := fun rs =>
      match multiReadAll (readersSize rs + 1) 4096 rs with
      | some (rs1, bs, none) =>
        if bs = onePixelPng then (rs1, .ok true) else (rs1, .error (.new "png: invalid format"))
      | some (rs1, _, some err) => (rs1, .error err)
      | none => (rs, .error ErrNoProgress)
    fill := fun img width height _ => img && decide (0 < width ∧ 0 < height)
    fit := fun img width height _ => img && decide (0 < width ∧ 0 < height)
    encode := fun img format =>
      if img = true ∧
          format ∈ [imagingJPEG, imagingPNG, imagingGIF, imagingTIFF, imagingBMP] then
        (written format, none)
      else ([], some (.new "imaging: unsupported image format")) }

/-- The names of the values of the `Format` enum. -/
def formatNames : List String := ["jpeg", "png", "gif", "tiff", "bmp"]

/-- A character that is part of a path element: no separator and no dot. -/
def Plain (c : Char) : Prop := c ≠ '/' ∧ c ≠ '.'

/-- A filesystem that holds only what the cache puts there: directories under a
path of at most four characters, files under a path of forty-five. -/
def MemFs.Owned (s : MemFs) : Prop :=
  ∀ e ∈ s.nodes, (e.2 = .dir ∧ e.1.length ≤ 4) ∨ (e.2 ≠ .dir ∧ e.1.length = 45)

instance (s : MemFs) : Decidable s.Owned := by
  unfold MemFs.Owned
  infer_instance

/-- A call of the cache. -/
inductive CacheOp where
  | store (key value : Bytes)
  | load (key : Bytes)
  | delete (key : Bytes)
deriving DecidableEq, Repr

/-- A history of calls on a cache over the in-memory filesystem, one after the
other, whatever each call returns. -/
def runOps (f : FileCache MemFs) : List CacheOp → Except Fault (FileCache MemFs)
  | [] => .ok f
  | .store key value :: ops =>
    match Store memFs f key value with
    | .ok (f1, _) => runOps f1 ops
    | .error fault => .error fault
  | .load key :: ops =>
    match Load memFs f key with
    | .ok (f1, _) => runOps f1 ops
    | .error fault => .error fault
  | .delete key :: ops =>
    match Delete memFs f key with
    | .ok (f1, _) => runOps f1 ops
    | .error fault => .error fault

/-! ## Properties: the path of a key -/

theorem putUint32_length (x : Nat) : (putUint32 x).length = 4 := by
  simp [putUint32]

theorem sha1Sum_length (data : Bytes) : (sha1Sum data).length = 20 := by
  simp [sha1Sum, putUint32_length]

set_option maxRecDepth 100000 in
/-- The digest of the empty message (FIPS 180 test vector). -/
theorem sha1Sum_nil :
    String.mk (hexEncodeToString (sha1Sum [])) = "da39a3ee5e6b4b0d3255bfef95601890afd80709" := by
  decide

set_option maxRecDepth 100000 in
/-- The digest of `"abc"` (FIPS 180 test vector). -/
theorem sha1Sum_abc :
    String.mk (hexEncodeToString (sha1Sum [0x61, 0x62, 0x63]))
      = "a9993e364706816aba3e25717850c26c9cd0d89d" := by
  decide

theorem hexEncodeToString_length (src : Bytes) :
    (hexEncodeToString src).length = 2 * src.length := by
  induction src with
  | nil => rfl
  | cons v rest ih =>
    have h : hexEncodeToString (v :: rest)
        = hextable.getD (v.toNat >>> 4) '0' :: hextable.getD (v.toNat &&& 0x0f) '0'
            :: hexEncodeToString rest := by
      simp [hexEncodeToString]
    rw [h, List.length_cons, List.length_cons, ih, List.length_cons]
    omega

theorem hextable_getD_mem (k : Nat) : hextable.getD k '0' ∈ hextable := by
  by_cases hk : k < 16
  · interval_cases k <;> decide
  · have hlen : hextable.length ≤ k := by
      have : hextable.length = 16 := by decide
      omega
    rw [List.getD_eq_default _ _ hlen]
    decide

theorem hexEncodeToString_mem (src : Bytes) (c : Char) (hc : c ∈ hexEncodeToString src) :
    c ∈ hextable := by
  induction src with
  | nil => simp [hexEncodeToString] at hc
  | cons v rest ih =>
    have h : hexEncodeToString (v :: rest)
        = hextable.getD (v.toNat >>> 4) '0' :: hextable.getD (v.toNat &&& 0x0f) '0'
            :: hexEncodeToString rest := by
      simp [hexEncodeToString]
    rw [h] at hc
    rcases List.mem_cons.1 hc with h1 | hc
    · rw [h1]; exact hextable_getD_mem _
    rcases List.mem_cons.1 hc with h2 | hc
    · rw [h2]; exact hextable_getD_mem _
    exact ih hc

theorem hash_length (key : Bytes) : (hexEncodeToString (sha1Sum key)).length = 40 := by
  rw [hexEncodeToString_length, sha1Sum_length]

/-- The path of a key in closed form: no slice of the digest is out of range. -/
theorem getFileName_eq (key : Bytes) : getFileName key = .ok (keyPath key) := by
  have hl := hash_length key
  simp [getFileName, keyPath, goSlice, hl, bind, Except.bind, pure, Except.pure]

theorem testBit_ones32 (i : Nat) : Nat.testBit 0xFFFFFFFF i = decide (i < 32) := by
  have h : (0xFFFFFFFF : Nat) = 2 ^ 32 - 1 := by norm_num
  rw [h, Nat.testBit_two_pow_sub_one]

theorem ch_mod (b c d : Nat) :
    ((b &&& c) ||| (not32 b &&& d)) % 2 ^ 32 = fipsCh b c d % 2 ^ 32 := by
  apply Nat.eq_of_testBit_eq
  intro i
  simp only [Nat.testBit_mod_two_pow, Nat.testBit_or, Nat.testBit_and, Nat.testBit_xor,
    fipsCh, not32, testBit_ones32]
  by_cases hi : i < 32 <;> simp [hi]
  cases Nat.testBit b i <;> cases Nat.testBit c i <;> cases Nat.testBit d i <;> rfl

theorem maj_eq (b c d : Nat) : ((b ||| c) &&& d) ||| (b &&& c) = fipsMaj b c d := by
  apply Nat.eq_of_testBit_eq
  intro i
  simp only [Nat.testBit_or, Nat.testBit_and, Nat.testBit_xor, fipsMaj]
  cases Nat.testBit b i <;> cases Nat.testBit c i <;> cases Nat.testBit d i <;> rfl

theorem roundFK_mod (i b c d : Nat) :
    ((roundFK i b c d).1 % 2 ^ 32 = fipsF i b c d % 2 ^ 32) ∧ (roundFK i b c d).2 = fipsK i := by
  unfold roundFK fipsF fipsK
  by_cases h1 : i < 20
  · have h1' : i ≤ 19 := by omega
    simp only [h1, h1', if_true]
    exact ⟨ch_mod b c d, trivial⟩
  · have h1' : ¬ i ≤ 19 := by omega
    simp only [h1, h1', if_false]
    by_cases h2 : i < 40
    · have h2' : i ≤ 39 := by omega
      simp only [h2, h2', if_true]
      exact ⟨rfl, trivial⟩
    · have h2' : ¬ i ≤ 39 := by omega
      simp only [h2, h2', if_false]
      by_cases h3 : i < 60
      · have h3' : i ≤ 59 := by omega
        simp only [h3, h3', if_true]
        exact ⟨by rw [maj_eq], trivial⟩
      · have h3' : ¬ i ≤ 59 := by omega
        simp only [h3, h3', if_false]
        exact ⟨rfl, trivial⟩

theorem sha1Rounds_fips (W : List Nat) :
    ∀ (ws : List Nat) (i : Nat) (s : Sha1State),
      (∀ j, j < ws.length → W.getD (i + j) 0 = ws.getD j 0) →
      (sha1Rounds ws i s).words = (List.range' i ws.length).foldl (fipsRound W) s.words := by
  intro ws
  induction ws with
  | nil => intro i s _; rfl
  | cons w ws ih =>
    intro i s hW
    have h0 : W.getD i 0 = w := by
      have := hW 0 (by simp)
      simpa using this
    have hstep : ∀ j, j < ws.length → W.getD (i + 1 + j) 0 = ws.getD j 0 := by
      intro j hj
      have := hW (j + 1) (by simp; omega)
      rw [show i + 1 + j = i + (j + 1) by omega, this]
      rfl
    rw [sha1Rounds, ih (i + 1) _ hstep, List.length_cons, List.range'_succ, List.foldl_cons]
    congr 1
    obtain ⟨hf, hk⟩ := roundFK_mod i s.h1 s.h2 s.h3
    simp only [Sha1State.words, fipsRound, u32, h0, hk]
    congr 1
    norm_num at hf ⊢
    omega

theorem getD_reverse (l : List Nat) (i : Nat) (h : i < l.length) :
    l.reverse.getD i 0 = l.getD (l.length - (i + 1)) 0 := by
  rw [List.getD_eq_getElem?_getD, List.getD_eq_getElem?_getD, List.getElem?_reverse h]
  rw [show l.length - 1 - i = l.length - (i + 1) by omega]

theorem fipsSchedule_eq :
    ∀ (n : Nat) (W : List Nat), 16 ≤ W.length →
      fipsSchedule n W = (expandSchedule n W.reverse).reverse := by
  intro n
  induction n with
  | zero => intro W _; simp [fipsSchedule, expandSchedule]
  | succ n ih =>
    intro W hW
    rw [fipsSchedule, ih _ (by simp; omega), expandSchedule, List.reverse_append,
      List.reverse_singleton, List.singleton_append,
      getD_reverse W 2 (by omega), getD_reverse W 7 (by omega),
      getD_reverse W 13 (by omega), getD_reverse W 15 (by omega)]

theorem expandSchedule_length : ∀ (n : Nat) (w : List Nat),
    (expandSchedule n w).length = n + w.length := by
  intro n
  induction n with
  | zero => intro w; simp [expandSchedule]
  | succ n ih => intro w; rw [expandSchedule, ih]; simp; omega

theorem sha1Block_fips (s : Sha1State) (block : Bytes) (h : (blockWords block).length = 16) :
    (sha1Block s block).words = fipsCompress s.words (blockWords block) := by
  have hlen : ((expandSchedule 64 (blockWords block).reverse).reverse).length = 80 := by
    rw [List.length_reverse, expandSchedule_length, List.length_reverse, h]
  have hr := sha1Rounds_fips (expandSchedule 64 (blockWords block).reverse).reverse
    (expandSchedule 64 (blockWords block).reverse).reverse 0 s (by intro j _; simp)
  rw [hlen, ← List.range_eq_range'] at hr
  simp only [fipsCompress, fipsSchedule_eq 64 _ (le_of_eq h.symm), ← hr]
  simp only [sha1Block, Sha1State.words, u32, Nat.add_comm]

theorem be32_eq (b0 b1 b2 b3 : UInt8) :
    be32 b0 b1 b2 b3 = b0.toNat * 2 ^ 24 + b1.toNat * 2 ^ 16 + b2.toNat * 2 ^ 8 + b3.toNat := by
  have h0 : b0.toNat < 256 := b0.toNat_lt
  have h1 : b1.toNat < 256 := b1.toNat_lt
  have h2 : b2.toNat < 256 := b2.toNat_lt
  have h3 : b3.toNat < 256 := b3.toNat_lt
  unfold be32
  rw [Nat.or_assoc, Nat.or_assoc, Nat.shiftLeft_eq, Nat.shiftLeft_eq, Nat.shiftLeft_eq,
    Nat.mul_comm b2.toNat, ← Nat.mul_add_lt_is_or h3,
    Nat.mul_comm b1.toNat, ← Nat.mul_add_lt_is_or (by omega),
    Nat.mul_comm b0.toNat, ← Nat.mul_add_lt_is_or (by omega)]
  omega

theorem getD_cons4 (b0 b1 b2 b3 : UInt8) (rest : Bytes) (k : Nat) :
    (b0 :: b1 :: b2 :: b3 :: rest).getD (k + 4) 0 = rest.getD k 0 := by
  simp [List.getD_eq_getElem?_getD]

theorem fipsWord_cons4 (b0 b1 b2 b3 : UInt8) (rest : Bytes) (k : Nat) :
    fipsWord (b0 :: b1 :: b2 :: b3 :: rest) (k + 4) = fipsWord rest k := by
  simp only [fipsWord]
  rw [getD_cons4, show k + 4 + 1 = k + 1 + 4 by omega, getD_cons4,
    show k + 4 + 2 = k + 2 + 4 by omega, getD_cons4,
    show k + 4 + 3 = k + 3 + 4 by omega, getD_cons4]

theorem blockWords_eq : ∀ (n : Nat) (l : Bytes), l.length = 4 * n →
    blockWords l = (List.range n).map fun j => fipsWord l (4 * j) := by
  intro n
  induction n with
  | zero =>
    intro l hl
    have : l = [] := List.length_eq_zero.1 (by omega)
    subst this
    rfl
  | succ n ih =>
    intro l hl
    match l, hl with
    | b0 :: b1 :: b2 :: b3 :: rest, hl =>
      have hrest : rest.length = 4 * n := by simp at hl; omega
      rw [blockWords, ih rest hrest, List.range_succ_eq_map, List.map_cons, List.map_map]
      congr 1
      rw [be32_eq]
      rfl

theorem fipsWord_take (p : Bytes) (k : Nat) (hk : k + 3 < 64) :
    fipsWord (p.take 64) k = fipsWord p k := by
  simp only [fipsWord, List.getD_eq_getElem?_getD]
  rw [List.getElem?_take_of_lt (by omega), List.getElem?_take_of_lt (by omega),
    List.getElem?_take_of_lt (by omega), List.getElem?_take_of_lt (by omega)]

theorem fipsWord_drop (p : Bytes) (k : Nat) :
    fipsWord (p.drop 64) k = fipsWord p (64 + k) := by
  simp only [fipsWord, List.getD_eq_getElem?_getD, List.getElem?_drop, Nat.add_assoc]

theorem blockWords_take (p : Bytes) (hp : 64 ≤ p.length) :
    blockWords (p.take 64) = fipsBlock p 0 := by
  rw [blockWords_eq 16 (p.take 64) (by rw [List.length_take]; omega)]
  apply List.map_congr_left
  intro j hj
  have hj16 : j < 16 := List.mem_range.1 hj
  rw [fipsWord_take p (4 * j) (by omega), show 64 * 0 + 4 * j = 4 * j by omega]

theorem fipsBlock_drop (p : Bytes) (i : Nat) : fipsBlock (p.drop 64) i = fipsBlock p (i + 1) := by
  apply List.map_congr_left
  intro j _
  rw [fipsWord_drop]
  congr 1
  omega

theorem fipsBlock_length (p : Bytes) (i : Nat) : (fipsBlock p i).length = 16 := by
  simp [fipsBlock]

theorem sha1Blocks_fips :
    ∀ (fuel : Nat) (s : Sha1State) (p : Bytes), p.length / 64 < fuel →
      (sha1Blocks fuel s p).words
        = (List.range (p.length / 64)).foldl (fun H i => fipsCompress H (fipsBlock p i))
            s.words := by
  intro fuel
  induction fuel with
  | zero => intro s p h; omega
  | succ fuel ih =>
    intro s p h
    by_cases hp : 64 ≤ p.length
    · have hlen : p.length / 64 = (p.drop 64).length / 64 + 1 := by
        rw [List.length_drop]; omega
      rw [sha1Blocks, if_pos hp, ih _ _ (by omega), hlen, List.range_succ_eq_map,
        List.foldl_cons, List.foldl_map,
        sha1Block_fips s (p.take 64) (by rw [blockWords_take p hp, fipsBlock_length]),
        blockWords_take p hp]
      simp only [Nat.succ_eq_add_one, fipsBlock_drop]
    · rw [sha1Blocks, if_neg hp, show p.length / 64 = 0 by omega]
      rfl

theorem fipsBytes_eq (x : Nat) : fipsBytes x = putUint32 x := by
  simp only [fipsBytes, putUint32, show List.range 4 = [0, 1, 2, 3] by rfl, List.map_cons,
    List.map_nil, Nat.shiftRight_eq_div_pow]
  norm_num

theorem fipsZeros_eq (r : Nat) (hr : r < 64) :
    ((List.range 64).find? fun z => (r + 1 + z) % 64 = 56).getD 0
      = (if r < 56 then 56 - r else 64 + 56 - r) - 1 := by
  interval_cases r <;> rfl

theorem fipsLength_eq (len : Nat) :
    ((List.range 8).map fun i => UInt8.ofNat (8 * len / 256 ^ (7 - i) % 256))
      = putUint64 ((len <<< 3) % 2 ^ 64) := by
  simp only [putUint64, show List.range 8 = [0, 1, 2, 3, 4, 5, 6, 7] by rfl, List.map_cons,
    List.map_nil, Nat.shiftRight_eq_div_pow, Nat.shiftLeft_eq]
  norm_num
  refine ⟨?_, ?_, ?_, ?_, ?_, ?_, ?_, ?_⟩ <;> congr 1 <;> omega

theorem fipsPad_eq (M : Bytes) : fipsPad M = M ++ sha1Padding M.length := by
  have hz : ((List.range 64).find? fun z => (M.length + 1 + z) % 64 = 56)
      = ((List.range 64).find? fun z => (M.length % 64 + 1 + z) % 64 = 56) := by
    congr 1
    funext z
    congr 1
    apply propext
    constructor <;> intro h <;> omega
  simp only [fipsPad, sha1Padding, hz, fipsZeros_eq (M.length % 64) (Nat.mod_lt _ (by omega)),
    fipsLength_eq, List.append_assoc, List.singleton_append, List.cons_append, List.nil_append]

/-- Refinement: the digest computed the way `crypto/sha1` does is the SHA-1 message
digest of FIPS 180-4, for every message. -/
theorem sha1Sum_fips (data : Bytes) : sha1Sum data = sha1Fips data := by
  have h := sha1Blocks_fips ((data ++ sha1Padding data.length).length / 64 + 1) sha1Init
    (data ++ sha1Padding data.length) (by omega)
  have hinit : sha1Init.words = (0x67452301, 0xefcdab89, 0x98badcfe, 0x10325476, 0xc3d2e1f0) := rfl
  rw [hinit] at h
  simp only [sha1Fips, fipsPad_eq, ← h, fipsBytes_eq]
  rfl

set_option maxRecDepth 100000 in
theorem getFileName_empty :
    getFileName ([]) = .ok "d/a3/da39a3ee5e6b4b0d3255bfef95601890afd80709" := by
  rfl

set_option maxRecDepth 100000 in
theorem getFileName_abc :
    getFileName ([0x61, 0x62, 0x63]) = .ok "a/99/a9993e364706816aba3e25717850c26c9cd0d89d" := by
  rfl

set_option maxRecDepth 100000 in
theorem getFileName_a55 :
    getFileName (List.replicate 55 0x61) = .ok "c/1c/c1c8bbdc22796e28c0e15163d20899b65621d65a" := by
  rfl

set_option maxRecDepth 100000 in
theorem getFileName_a56 :
    getFileName (List.replicate 56 0x61) = .ok "c/2d/c2db330f6083854c99d4b5bfb6e8f29f201be699" := by
  rfl

set_option maxRecDepth 100000 in
theorem getFileName_a64 :
    getFileName (List.replicate 64 0x61) = .ok "0/09/0098ba824b5c16427bd7a1122a5a442a25ec644d" := by
  rfl

set_option maxRecDepth 100000 in
theorem getFileName_a119 :
    getFileName (List.replicate 119 0x61) = .ok "e/e9/ee971065aaa017e0632a8ca6c77bb3bf8b1dfc56" := by
  rfl

set_option maxRecDepth 100000 in
theorem getFileName_a120 :
    getFileName (List.replicate 120 0x61) = .ok "f/34/f34c1488385346a55709ba056ddd08280dd4c6d6" := by
  rfl

set_option maxRecDepth 100000 in
theorem getFileName_bytes :
    getFileName ((List.range 256).map UInt8.ofNat) = .ok "4/91/4916d6bdb7f78e6803698cab32d1586ea457dfc8" := by
  rfl

/-- C2: for every key, `getFileName` returns `h[0:1] + "/" + h[1:3] + "/" + h`, where
`h` is the hex encoding of the SHA-1 digest of the key: what `crypto/sha1` computes
is the message digest of FIPS 180-4, it has 20 bytes, `h` has 40 characters, all of
them lower-case hexadecimal digits, both slices are in range (no panic), the path
has 45 characters, and equal keys give equal paths. The paths of the empty key, of
`"abc"`, of keys of 55, 56, 64, 119 and 120 bytes (around the padding boundaries)
and of the 256 byte values in order are those of the known SHA-1 digests of these
messages. -/
theorem getFileName_spec :
    (∀ key : Bytes,
      ∃ h : List Char, h = hexEncodeToString (sha1Sum key) ∧
        sha1Sum key = sha1Fips key ∧
        (sha1Sum key).length = 20 ∧ h.length = 40 ∧
        (∀ c ∈ h, c ∈ "0123456789abcdef".toList) ∧
        goSlice h 0 1 = .ok (h.take 1) ∧
        goSlice h 1 3 = .ok ((h.take 3).drop 1) ∧
        getFileName key
          = .ok (String.mk (h.take 1) ++ "/" ++ String.mk ((h.take 3).drop 1) ++ "/"
              ++ String.mk h) ∧
        (getFileName key).map String.length = .ok 45 ∧
        ∀ key2 : Bytes, key2 = key → getFileName key2 = getFileName key) ∧
    getFileName [] = .ok "d/a3/da39a3ee5e6b4b0d3255bfef95601890afd80709" ∧
    getFileName [0x61, 0x62, 0x63] = .ok "a/99/a9993e364706816aba3e25717850c26c9cd0d89d" ∧
    getFileName (List.replicate 55 0x61)
      = .ok "c/1c/c1c8bbdc22796e28c0e15163d20899b65621d65a" ∧
    getFileName (List.replicate 56 0x61)
      = .ok "c/2d/c2db330f6083854c99d4b5bfb6e8f29f201be699" ∧
    getFileName (List.replicate 64 0x61)
      = .ok "0/09/0098ba824b5c16427bd7a1122a5a442a25ec644d" ∧
    getFileName (List.replicate 119 0x61)
      = .ok "e/e9/ee971065aaa017e0632a8ca6c77bb3bf8b1dfc56" ∧
    getFileName (List.replicate 120 0x61)
      = .ok "f/34/f34c1488385346a55709ba056ddd08280dd4c6d6" ∧
    getFileName ((List.range 256).map UInt8.ofNat)
      = .ok "4/91/4916d6bdb7f78e6803698cab32d1586ea457dfc8" := by
  refine ⟨?_, getFileName_empty, getFileName_abc, getFileName_a55, getFileName_a56,
    getFileName_a64, getFileName_a119, getFileName_a120, getFileName_bytes⟩
  intro key
  refine ⟨_, rfl, sha1Sum_fips key, sha1Sum_length key, hash_length key, ?_, ?_, ?_, ?_, ?_, ?_⟩
  · intro c hc
    exact hexEncodeToString_mem _ c hc
  · simp [goSlice, hash_length key]
  · simp [goSlice, hash_length key]
  · rw [getFileName_eq]
    congr 1
  · rw [getFileName_eq]
    have hl := hash_length key
    simp [keyPath, Except.map, String.length, hl]
  · intro key2 h
    rw [h]

/-! ## Properties: locks of a cache at rest -/

theorem lookup_mem {α : Type} (key : Bytes) (a : α) :
    ∀ m : List (Bytes × α), m.lookup key = some a → (key, a) ∈ m := by
  intro m
  induction m with
  | nil => intro h; simp at h
  | cons e rest ih =>
    intro h
    obtain ⟨k, v⟩ := e
    by_cases hk : key = k
    · subst hk
      simp [List.lookup] at h
      simp [h]
    · have hb : (key == k) = false := by simpa using hk
      simp [List.lookup, hb] at h
      exact List.mem_cons_of_mem _ (ih h)

theorem getScopedLocks_some {σ : Type} (f : FileCache σ) (key : Bytes) (lock : Nat)
    (h : (f.locks.getD []).lookup key = some lock) :
    getScopedLocks f key = ({ f with locks := some (f.locks.getD []) }, lock) := by
  simp [getScopedLocks, h]

theorem getScopedLocks_none {σ : Type} (f : FileCache σ) (key : Bytes)
    (h : (f.locks.getD []).lookup key = none) :
    getScopedLocks f key
      = ({ f with locks := some ((key, f.mutexes.length) :: f.locks.getD []),
                  mutexes := f.mutexes ++ [false] }, f.mutexes.length) := by
  simp [getScopedLocks, h]

theorem getScopedLocks_disk {σ : Type} (f : FileCache σ) (key : Bytes) :
    (getScopedLocks f key).1.disk = f.disk := by
  cases h : (f.locks.getD []).lookup key with
  | none => rw [getScopedLocks_none f key h]
  | some lock => rw [getScopedLocks_some f key lock h]

theorem getScopedLocks_free {σ : Type} (f : FileCache σ) (key : Bytes) (h : f.Idle) :
    (getScopedLocks f key).1.Idle ∧
      (getScopedLocks f key).1.mutexes[(getScopedLocks f key).2]? = some false := by
  obtain ⟨hfree, hvalid⟩ := h
  cases hl : (f.locks.getD []).lookup key with
  | some lock =>
    rw [getScopedLocks_some f key lock hl]
    have hmem := lookup_mem key lock _ hl
    have hlt : lock < f.mutexes.length := hvalid _ hmem
    refine ⟨⟨hfree, ?_⟩, ?_⟩
    · intro e he
      exact hvalid e (by simpa using he)
    · show f.mutexes[lock]? = some false
      rw [List.getElem?_eq_getElem hlt]
      exact congrArg some (hfree _ (List.getElem_mem _))
  | none =>
    rw [getScopedLocks_none f key hl]
    refine ⟨⟨?_, ?_⟩, ?_⟩
    · intro b hb
      rcases List.mem_append.1 hb with hb | hb
      · exact hfree b hb
      · simpa using hb
    · intro e he
      have he2 : e = (key, f.mutexes.length) ∨ e ∈ f.locks.getD [] := by simpa using he
      rcases he2 with he2 | he2
      · subst he2; simp
      · have := hvalid e he2
        simp only [List.length_append, List.length_singleton]
        omega
    · show (f.mutexes ++ [false])[f.mutexes.length]? = some false
      simp

theorem set_set_free (l : List Bool) (mu : Nat) (h : l[mu]? = some false) :
    (l.set mu true).set mu false = l := by
  induction l generalizing mu with
  | nil => simp at h
  | cons b rest ih =>
    cases mu with
    | zero =>
      have hb : b = false := by simpa using h
      simp [hb]
    | succ n =>
      have hn : rest[n]? = some false := by simpa using h
      simp [ih n hn]

theorem getElem?_set_true (l : List Bool) (mu : Nat) (h : l[mu]? = some false) :
    (l.set mu true)[mu]? = some true := by
  induction l generalizing mu with
  | nil => simp at h
  | cons b rest ih =>
    cases mu with
    | zero => simp
    | succ n =>
      have hn : rest[n]? = some false := by simpa using h
      simpa using ih n hn

theorem lock_ok {σ : Type} (f : FileCache σ) (key : Bytes) (h : f.Idle) :
    mutexLock (getScopedLocks f key).1 (getScopedLocks f key).2
        = .ok { (getScopedLocks f key).1 with
                mutexes := (getScopedLocks f key).1.mutexes.set (getScopedLocks f key).2 true } := by
  obtain ⟨_, hget⟩ := getScopedLocks_free f key h
  simp [mutexLock, hget]

theorem unlock_ok {σ : Type} (f : FileCache σ) (key : Bytes) (h : f.Idle) (d : σ) :
    mutexUnlock { disk := d, locks := (getScopedLocks f key).1.locks,
                    mutexes := (getScopedLocks f key).1.mutexes.set (getScopedLocks f key).2 true }
          (getScopedLocks f key).2
        = .ok { (getScopedLocks f key).1 with disk := d } := by
  obtain ⟨_, hget⟩ := getScopedLocks_free f key h
  simp [mutexUnlock, getElem?_set_true _ _ hget, set_set_free _ _ hget]

/-- The result of `Store` on a cache at rest, in terms of the filesystem calls. -/
theorem Store_eq {σ File : Type} (fs : Fs σ File) (f : FileCache σ) (key value : Bytes)
    (h : f.Idle) :
    Store fs f key value = .ok
      (match fs.MkdirAll f.disk (filepathDir (keyPath key)) with
       | (d, some err) => ({ (getScopedLocks f key).1 with disk := d }, some err)
       | (d, none) =>
         match fs.WriteFile d (keyPath key) value with
         | (d1, some err) => ({ (getScopedLocks f key).1 with disk := d1 }, some err)
         | (d1, none) => ({ (getScopedLocks f key).1 with disk := d1 }, none)) := by
  simp only [Store, bind, Except.bind, pure, Except.pure, lock_ok f key h, getFileName_eq,
    getScopedLocks_disk]
  cases hmk : fs.MkdirAll f.disk (filepathDir (keyPath key)) with
  | mk d e =>
    cases e with
    | some err => simp [unlock_ok f key h]
    | none =>
      cases hwr : fs.WriteFile d (keyPath key) value with
      | mk d1 e1 =>
        cases e1 <;> simp [hwr, unlock_ok f key h]

/-- The result of `Delete` on a cache at rest, in terms of the filesystem call. -/
theorem Delete_eq {σ File : Type} (fs : Fs σ File) (f : FileCache σ) (key : Bytes)
    (h : f.Idle) :
    Delete fs f key = .ok
      ({ (getScopedLocks f key).1 with disk := (fs.Remove f.disk (keyPath key)).1 },
       match (fs.Remove f.disk (keyPath key)).2 with
       | some err => if errorsIs err ErrNotExist then none else some err
       | none => none) := by
  simp only [Delete, bind, Except.bind, pure, Except.pure, lock_ok f key h, getFileName_eq,
    getScopedLocks_disk]
  cases hrm : fs.Remove f.disk (keyPath key) with
  | mk d e =>
    cases e with
    | none => simp [unlock_ok f key h]
    | some err =>
      by_cases he : errorsIs err ErrNotExist = true
      · simp [he, unlock_ok f key h]
      · simp [he, unlock_ok f key h]

/-- The result of `Load`, in terms of the filesystem calls. -/
theorem Load_eq {σ File : Type} (fs : Fs σ File) (f : FileCache σ) (key : Bytes) :
    Load fs f key = .ok
      (match fs.Open f.disk (keyPath key) with
       | (d, .error err) =>
         ({ f with disk := d }, none, false, if errorsIs err ErrNotExist then none else some err)
       | (d, .ok file) =>
         match fs.ReadAll d file with
         | (d1, _, some err) => ({ f with disk := (fs.Close d1 file).1 }, none, false, some err)
         | (d1, value, none) => ({ f with disk := (fs.Close d1 file).1 }, some value, true, none)) := by
  simp only [Load, open', bind, Except.bind, pure, Except.pure, getFileName_eq]
  cases hop : fs.Open f.disk (keyPath key) with
  | mk d r =>
    cases r with
    | error err =>
      by_cases he : errorsIs err ErrNotExist = true
      · simp [he]
      · simp [he]
    | ok file =>
      simp only []
      cases hrd : fs.ReadAll d file with
      | mk d1 r1 =>
        obtain ⟨value, e⟩ := r1
        cases e <;> simp [hrd]

theorem Store_idle {σ File : Type} (fs : Fs σ File) (f : FileCache σ) (key value : Bytes)
    (h : f.Idle) (f1 : FileCache σ) (ret : Option GoError)
    (hs : Store fs f key value = .ok (f1, ret)) : f1.Idle := by
  rw [Store_eq fs f key value h] at hs
  have hi := (getScopedLocks_free f key h).1
  have hlm : f1.locks = (getScopedLocks f key).1.locks ∧
      f1.mutexes = (getScopedLocks f key).1.mutexes := by
    cases hmk : fs.MkdirAll f.disk (filepathDir (keyPath key)) with
    | mk d e =>
      cases e with
      | some err =>
        simp only [hmk, Except.ok.injEq, Prod.mk.injEq] at hs
        rw [← hs.1]; exact ⟨rfl, rfl⟩
      | none =>
        cases hwr : fs.WriteFile d (keyPath key) value with
        | mk d1 e1 =>
          cases e1 <;>
          · simp only [hmk, hwr, Except.ok.injEq, Prod.mk.injEq] at hs
            rw [← hs.1]; exact ⟨rfl, rfl⟩
  unfold FileCache.Idle at hi ⊢
  rw [hlm.1, hlm.2]
  exact hi

theorem Delete_idle {σ File : Type} (fs : Fs σ File) (f : FileCache σ) (key : Bytes)
    (h : f.Idle) (f1 : FileCache σ) (ret : Option GoError)
    (hs : Delete fs f key = .ok (f1, ret)) : f1.Idle := by
  rw [Delete_eq fs f key h] at hs
  have hi := (getScopedLocks_free f key h).1
  simp only [Except.ok.injEq, Prod.mk.injEq] at hs
  unfold FileCache.Idle at hi ⊢
  rw [← hs.1]
  exact hi

theorem New_idle {σ : Type} (disk : σ) : (New disk).Idle := by
  constructor
  · intro b hb; simp [New] at hb
  · intro e he; simp [New] at he

/-! ## Properties: Load on any filesystem -/

/-- C3: for every filesystem, cache and key, `Load` opens the path of the key and
returns `(nil, false, nil)` when the open fails with a not-exist error,
`(nil, false, err)` with the same `err` when the open fails otherwise or the read
fails, and `(content, true, nil)` when both succeed; it returns `exist = true`
only in that last case, so never together with an error. -/
theorem Load_spec {σ File : Type} (fs : Fs σ File) (f : FileCache σ) (key : Bytes) :
    getFileName key = .ok (keyPath key) ∧
    (∀ d err, fs.Open f.disk (keyPath key) = (d, .error err) → errorsIs err ErrNotExist = true →
      Load fs f key = .ok ({ f with disk := d }, none, false, none)) ∧
    (∀ d err, fs.Open f.disk (keyPath key) = (d, .error err) → errorsIs err ErrNotExist = false →
      Load fs f key = .ok ({ f with disk := d }, none, false, some err)) ∧
    (∀ d file d1 content err, fs.Open f.disk (keyPath key) = (d, .ok file) →
      fs.ReadAll d file = (d1, content, some err) →
      Load fs f key = .ok ({ f with disk := (fs.Close d1 file).1 }, none, false, some err)) ∧
    (∀ d file d1 content, fs.Open f.disk (keyPath key) = (d, .ok file) →
      fs.ReadAll d file = (d1, content, none) →
      Load fs f key = .ok ({ f with disk := (fs.Close d1 file).1 }, some content, true, none)) ∧
    (∀ f1 value err, Load fs f key = .ok (f1, value, true, err) →
      err = none ∧ ∃ d file d1 content, fs.Open f.disk (keyPath key) = (d, .ok file) ∧
        fs.ReadAll d file = (d1, content, none) ∧ value = some content) ∧
    ∃ f1 value exist err, Load fs f key = .ok (f1, value, exist, err) := by
  have hl := Load_eq fs f key
  refine ⟨getFileName_eq key, ?_, ?_, ?_, ?_, ?_, ?_⟩
  · intro d err ho he
    rw [hl, ho]; simp [he]
  · intro d err ho he
    rw [hl, ho]; simp [he]
  · intro d file d1 content err ho hr
    rw [hl, ho]; simp [hr]
  · intro d file d1 content ho hr
    rw [hl, ho]; simp [hr]
  · intro f1 value err hload
    rw [hl] at hload
    cases ho : fs.Open f.disk (keyPath key) with
    | mk d r =>
      cases r with
      | error e => simp [ho] at hload
      | ok file =>
        cases hr : fs.ReadAll d file with
        | mk d1 r1 =>
          obtain ⟨content, e⟩ := r1
          cases e with
          | some e => simp [ho, hr] at hload
          | none =>
            simp [ho, hr] at hload
            exact ⟨hload.2.2.symm, d, file, d1, content, rfl, hr, hload.2.1.symm⟩
  · rw [hl]
    exact ⟨_, _, _, _, rfl⟩

/-! ## Properties: the lock registry -/

theorem lookup_cons_self {α : Type} (key : Bytes) (a : α) (m : List (Bytes × α)) :
    List.lookup key ((key, a) :: m) = some a := by
  simp [List.lookup]

theorem lookup_cons_ne {α : Type} (key k : Bytes) (a : α) (m : List (Bytes × α)) (h : k ≠ key) :
    List.lookup k ((key, a) :: m) = List.lookup k m := by
  have hb : (k == key) = false := by simpa using h
  simp [List.lookup, hb]

/-- One call of `getScopedLocks`, on any cache: the entries of the map stay, an
entry is added exactly when the key had none, and the lock returned is the entry
of the key. -/
theorem getScopedLocks_step {σ : Type} (f : FileCache σ) (key : Bytes) :
    (∀ k a, (f.locks.getD []).lookup k = some a →
      ((getScopedLocks f key).1.locks.getD []).lookup k = some a) ∧
    ((f.locks.getD []).lookup key ≠ none →
      (getScopedLocks f key).1.locks.getD [] = f.locks.getD [] ∧
      (getScopedLocks f key).1.mutexes = f.mutexes) ∧
    ((f.locks.getD []).lookup key = none →
      (getScopedLocks f key).1.locks.getD [] = (key, (getScopedLocks f key).2) :: f.locks.getD [] ∧
      (getScopedLocks f key).2 = f.mutexes.length ∧
      (getScopedLocks f key).1.mutexes = f.mutexes ++ [false]) ∧
    ((getScopedLocks f key).1.locks.getD []).lookup key = some (getScopedLocks f key).2 := by
  cases hl : (f.locks.getD []).lookup key with
  | some lock =>
    rw [getScopedLocks_some f key lock hl]
    refine ⟨fun k a h => h, fun _ => ⟨rfl, rfl⟩, fun h => by simp at h, hl⟩
  | none =>
    rw [getScopedLocks_none f key hl]
    refine ⟨?_, fun h => absurd rfl h, fun _ => ⟨rfl, rfl, rfl⟩, ?_⟩
    · intro k a h
      have hk : k ≠ key := by
        intro hk; rw [hk, hl] at h; simp at h
      show List.lookup k ((key, f.mutexes.length) :: f.locks.getD []) = some a
      rw [lookup_cons_ne key k _ _ hk]; exact h
    · exact lookup_cons_self _ _ _

theorem getScopedLocks_distinct {σ : Type} (f : FileCache σ) (key : Bytes)
    (h : f.Idle) (hd : f.Distinct) : (getScopedLocks f key).1.Distinct := by
  cases hl : (f.locks.getD []).lookup key with
  | some lock =>
    rw [getScopedLocks_some f key lock hl]
    exact hd
  | none =>
    rw [getScopedLocks_none f key hl]
    intro k1 k2 a h1 h2
    have h1a : List.lookup k1 ((key, f.mutexes.length) :: f.locks.getD []) = some a := h1
    have h2a : List.lookup k2 ((key, f.mutexes.length) :: f.locks.getD []) = some a := h2
    by_cases e1 : k1 = key <;> by_cases e2 : k2 = key
    · rw [e1, e2]
    · rw [e1, lookup_cons_self] at h1a
      rw [lookup_cons_ne key k2 _ _ e2] at h2a
      have := h.2 _ (lookup_mem k2 a _ h2a)
      simp only [Option.some.injEq] at h1a
      simp only at this
      omega
    · rw [e2, lookup_cons_self] at h2a
      rw [lookup_cons_ne key k1 _ _ e1] at h1a
      have := h.2 _ (lookup_mem k1 a _ h1a)
      simp only [Option.some.injEq] at h2a
      simp only at this
      omega
    · rw [lookup_cons_ne key k1 _ _ e1] at h1a
      rw [lookup_cons_ne key k2 _ _ e2] at h2a
      exact hd k1 k2 a h1a h2a

/-- A sequence of calls from a cache at rest with distinct locks: the cache stays
so, the entries of the map stay, and the lock returned by each call is the entry
of its key in the final map. -/
theorem getScopedLocksSeq_spec {σ : Type} (keys : List Bytes) :
    ∀ f : FileCache σ, f.Idle → f.Distinct →
      (getScopedLocksSeq f keys).1.Idle ∧ (getScopedLocksSeq f keys).1.Distinct ∧
      (getScopedLocksSeq f keys).2.length = keys.length ∧
      (∀ k a, (f.locks.getD []).lookup k = some a →
        ((getScopedLocksSeq f keys).1.locks.getD []).lookup k = some a) ∧
      ∀ (i : Nat) k a, keys[i]? = some k → (getScopedLocksSeq f keys).2[i]? = some a →
        ((getScopedLocksSeq f keys).1.locks.getD []).lookup k = some a := by
  induction keys with
  | nil =>
    intro f hi hd
    refine ⟨hi, hd, rfl, fun k a h => h, ?_⟩
    intro i k a hk; simp at hk
  | cons key keys ih =>
    intro f hi hd
    have hi1 := (getScopedLocks_free f key hi).1
    have hd1 := getScopedLocks_distinct f key hi hd
    obtain ⟨hstay, _, _, hentry⟩ := getScopedLocks_step f key
    obtain ⟨hI, hD, hlen, hkeep, hret⟩ := ih (getScopedLocks f key).1 hi1 hd1
    have hseq : getScopedLocksSeq f (key :: keys)
        = ((getScopedLocksSeq (getScopedLocks f key).1 keys).1,
           (getScopedLocks f key).2 :: (getScopedLocksSeq (getScopedLocks f key).1 keys).2) := rfl
    rw [hseq]
    refine ⟨hI, hD, by simp [hlen], fun k a h => hkeep k a (hstay k a h), ?_⟩
    intro i k a hk ha
    cases i with
    | zero =>
      simp only [List.getElem?_cons_zero, Option.some.injEq] at hk ha
      subst hk; subst ha
      exact hkeep _ _ hentry
    | succ n =>
      simp only [List.getElem?_cons_succ] at hk ha
      exact hret n k a hk ha

theorem New_distinct {σ : Type} (disk : σ) : (New disk).Distinct := by
  intro k1 k2 a h1
  simp [New] at h1

/-- C10: every call of `getScopedLocks` keeps the entries of the lock map, adds an
entry only when the key had none, and returns the entry of the key; so in every
sequence of calls on a new cache, two calls return the same lock exactly when they
have the same key, and the lock a call returned is still the entry of its key at
the end of the sequence: no entry is removed or replaced. -/
theorem getScopedLocks_spec {σ : Type} (disk : σ) (keys : List Bytes) :
    (∀ (f : FileCache σ) (key : Bytes),
      (∀ k a, (f.locks.getD []).lookup k = some a →
        ((getScopedLocks f key).1.locks.getD []).lookup k = some a) ∧
      ((f.locks.getD []).lookup key ≠ none →
        (getScopedLocks f key).1.locks.getD [] = f.locks.getD []) ∧
      ((f.locks.getD []).lookup key = none →
        (getScopedLocks f key).1.locks.getD []
          = (key, (getScopedLocks f key).2) :: f.locks.getD []) ∧
      ((getScopedLocks f key).1.locks.getD []).lookup key = some (getScopedLocks f key).2) ∧
    (getScopedLocksSeq (New disk) keys).2.length = keys.length ∧
    (∀ (i j : Nat) ki kj li lj, keys[i]? = some ki → keys[j]? = some kj →
      (getScopedLocksSeq (New disk) keys).2[i]? = some li →
      (getScopedLocksSeq (New disk) keys).2[j]? = some lj → (li = lj ↔ ki = kj)) ∧
    (∀ (i : Nat) k l, keys[i]? = some k → (getScopedLocksSeq (New disk) keys).2[i]? = some l →
      ((getScopedLocksSeq (New disk) keys).1.locks.getD []).lookup k = some l) := by
  obtain ⟨_, hD, hlen, _, hret⟩ :=
    getScopedLocksSeq_spec keys (New disk) (New_idle disk) (New_distinct disk)
  refine ⟨?_, hlen, ?_, hret⟩
  · intro f key
    obtain ⟨h1, h2, h3, h4⟩ := getScopedLocks_step f key
    exact ⟨h1, fun h => (h2 h).1, fun h => (h3 h).1, h4⟩
  · intro i j ki kj li lj hki hkj hli hlj
    have hi := hret i ki li hki hli
    have hj := hret j kj lj hkj hlj
    constructor
    · intro h
      subst h
      exact hD ki kj li hi hj
    · intro h
      subst h
      rw [hi] at hj
      exact Option.some.inj hj

/-! ## Properties: format detection -/

theorem streamRead_bytes (s : Stream) (n : Nat) :
    (s.Read n).2.1 ++ (s.Read n).1.bytes = s.bytes ∧ (s.Read n).1.final = s.final ∧
      (s.Read n).1.chunks.length ≤ s.chunks.length := by
  obtain ⟨chunks, final⟩ := s
  cases chunks with
  | nil => simp [Stream.Read, Stream.bytes]
  | cons c cs =>
    by_cases h : c.length ≤ n
    · simp [Stream.Read, Stream.bytes, h]
    · simp only [Stream.Read, Stream.bytes, h, if_false, List.flatten_cons, List.length_cons,
        le_refl, and_self, and_true]
      rw [← List.append_assoc, List.take_append_drop]

theorem teeRead_bytes (t : TeeReader) (n : Nat) :
    (t.Read n).1.w.buf ++ (t.Read n).1.r.bytes = t.w.buf ++ t.r.bytes ∧
      (t.Read n).1.r.final = t.r.final ∧ (t.Read n).1.r.chunks.length ≤ t.r.chunks.length ∧
      ∃ k, (t.Read n).1.w.buf = t.w.buf ++ t.r.bytes.take k := by
  obtain ⟨hb, hf, hc⟩ := streamRead_bytes t.r n
  cases hr : t.r.Read n with
  | mk r1 rest =>
    obtain ⟨bs, err⟩ := rest
    rw [hr] at hb hf hc
    simp only at hb hf hc
    have htake : t.r.bytes.take bs.length = bs := by
      rw [← hb]; simp
    by_cases hpos : 0 < bs.length
    · simp only [TeeReader.Read, hr, hpos, if_true, Buffer.Write]
      refine ⟨by rw [List.append_assoc, hb], hf, hc, bs.length, by rw [htake]⟩
    · have hnil : bs = [] := by
        cases bs with
        | nil => rfl
        | cons b bs => simp at hpos
      subst hnil
      simp only [TeeReader.Read, hr, List.length_nil, lt_self_iff_false, if_false]
      refine ⟨by simpa using hb, hf, hc, 0, by simp⟩

/-- Whatever a header decoder reads through the `TeeReader`, the buffer holds the
bytes read and the stream the rest: the two together are the input. -/
theorem decoderRun_bytes (dec : Decoder) :
    ∀ t : TeeReader, ((dec.run t).1.w.buf ++ (dec.run t).1.r.bytes = t.w.buf ++ t.r.bytes ∧
      (dec.run t).1.r.final = t.r.final ∧ (dec.run t).1.r.chunks.length ≤ t.r.chunks.length) := by
  induction dec with
  | done result => intro t; exact ⟨rfl, rfl, le_refl _⟩
  | read n next ih =>
    intro t
    obtain ⟨hb, hf, hc, _⟩ := teeRead_bytes t n
    have hrun : (Decoder.read n next).run t
        = (next (t.Read n).2.1 (t.Read n).2.2).run (t.Read n).1 := rfl
    rw [hrun]
    obtain ⟨hb1, hf1, hc1⟩ := ih (t.Read n).2.1 (t.Read n).2.2 (t.Read n).1
    exact ⟨hb1.trans hb, hf1.trans hf, le_trans hc1 hc⟩

theorem take_append_drop_append {α : Type} (n : Nat) (l x : List α) :
    l.take n ++ (l.drop n ++ x) = l ++ x := by
  rw [← List.append_assoc, List.take_append_drop]

/-- One `Read` of a multi-reader with a non-empty buffer: without error it hands
over the next bytes and leaves strictly less to read; with an error it hands over
nothing, and nothing was left before the error. -/
theorem multiRead_step (size : Nat) (hsize : 0 < size) :
    ∀ rs : List AnyReader,
      ((multiRead rs size).2.2 = none →
        readersResult rs = ((multiRead rs size).2.1 ++ (readersResult (multiRead rs size).1).1,
          (readersResult (multiRead rs size).1).2) ∧
        readersSize (multiRead rs size).1 < readersSize rs) ∧
      (∀ e, (multiRead rs size).2.2 = some e →
        (multiRead rs size).2.1 = [] ∧
        readersResult rs = ([], if e = EOF then none else some e)) := by
  have hne : size ≠ 0 := by omega
  intro rs
  induction rs with
  | nil => simp [multiRead, readersResult]
  | cons r rs ih =>
    cases r with
    | buffer b =>
      by_cases hb : b.buf = []
      · have hm : multiRead (.buffer b :: rs) size = multiRead rs size := by
          simp [multiRead, AnyReader.Read, Buffer.Read, hb, hne]
        rw [hm]
        simpa [readersResult, readersSize, hb] using ih
      · have hm : multiRead (.buffer b :: rs) size
            = (.buffer { buf := b.buf.drop size } :: rs, b.buf.take size, none) := by
          simp [multiRead, AnyReader.Read, Buffer.Read, hb]
        rw [hm]
        have hlen : 0 < b.buf.length := List.length_pos.2 hb
        refine ⟨fun _ => ⟨?_, ?_⟩, fun e he => by simp at he⟩
        · simp [readersResult, take_append_drop_append]
        · simp only [readersSize, List.length_drop]
          omega
    | stream s =>
      obtain ⟨chunks, final⟩ := s
      cases chunks with
      | nil =>
        by_cases hf : final = EOF
        · have hm : multiRead (.stream { chunks := [], final := final } :: rs) size
              = multiRead rs size := by
            simp [multiRead, AnyReader.Read, Stream.Read, hf]
          rw [hm]
          simpa [readersResult, readersSize, Stream.bytes, hf] using ih
        · have hm : multiRead (.stream { chunks := [], final := final } :: rs) size
              = (.stream { chunks := [], final := final } :: rs, [], some final) := by
            simp [multiRead, AnyReader.Read, Stream.Read, hf]
          rw [hm]
          refine ⟨fun h => by simp at h, fun e he => ?_⟩
          have he1 : final = e := by simpa using he
          subst he1
          simp [readersResult, Stream.bytes, hf]
      | cons c cs =>
        by_cases hc : c.length ≤ size
        · have hm : multiRead (.stream { chunks := c :: cs, final := final } :: rs) size
              = (.stream { chunks := cs, final := final } :: rs, c, none) := by
            simp [multiRead, AnyReader.Read, Stream.Read, hc]
          rw [hm]
          refine ⟨fun _ => ⟨?_, ?_⟩, fun e he => by simp at he⟩
          · by_cases hf : final = EOF
            · simp [readersResult, Stream.bytes, hf]
            · simp [readersResult, Stream.bytes, hf]
          · simp only [readersSize, Stream.bytes, List.flatten_cons, List.length_append,
              List.length_cons]
            omega
        · have hm : multiRead (.stream { chunks := c :: cs, final := final } :: rs) size
              = (.stream { chunks := c.drop size :: cs, final := final } :: rs,
                 c.take size, none) := by
            simp [multiRead, AnyReader.Read, Stream.Read, hc]
          rw [hm]
          refine ⟨fun _ => ⟨?_, ?_⟩, fun e he => by simp at he⟩
          · by_cases hf : final = EOF
            · simp [readersResult, Stream.bytes, hf, take_append_drop_append]
            · simp [readersResult, Stream.bytes, hf, take_append_drop_append]
          · simp only [readersSize, Stream.bytes, List.flatten_cons, List.length_append,
              List.length_cons, List.length_drop]
            omega

/-- With a non-empty buffer and enough calls, `io.ReadAll` returns, with all that
the readers hold. -/
theorem multiReadAll_spec (size : Nat) (hsize : 0 < size) :
    ∀ (fuel : Nat) (rs : List AnyReader), readersSize rs < fuel →
      ∃ rs1, multiReadAll fuel size rs = some (rs1, (readersResult rs).1, (readersResult rs).2) := by
  intro fuel
  induction fuel with
  | zero => intro rs h; omega
  | succ fuel ih =>
    intro rs h
    obtain ⟨hnone, hsome⟩ := multiRead_step size hsize rs
    cases hm : multiRead rs size with
    | mk rs1 rest =>
      obtain ⟨bs, err⟩ := rest
      rw [hm] at hnone hsome
      cases err with
      | some e =>
        obtain ⟨hbs, hres⟩ := hsome e rfl
        simp only at hbs
        subst hbs
        refine ⟨rs1, ?_⟩
        simp [multiReadAll, hm, hres]
      | none =>
        obtain ⟨hres, hlt⟩ := hnone rfl
        simp only at hres hlt
        obtain ⟨rs2, h2⟩ := ih rs1 (by omega)
        refine ⟨rs2, ?_⟩
        simp [multiReadAll, hm, h2, hres]

theorem ParseFormat_png : ParseFormat "png" = .ok FormatPng := by
  simp [ParseFormat]

/-- C6: when `detectFormat` succeeds, the reader it returns is the buffer holding
the first `n` bytes of the input, for the number `n` of bytes the header decoder
consumed, followed by the input stream where the decoder left it; reading it to
the end (any non-empty read buffer, enough calls) returns exactly the bytes of the
input in order, and the end of the input. The format is the enum value of the name
the decoder reported: `FormatPng` for `"png"`. -/
theorem detectFormat_replay (dec : Decoder) (inp inp1 : Stream) (format : Format)
    (readers : List AnyReader) (h : detectFormat dec inp = (inp1, .ok (format, readers))) :
    ∃ n, n ≤ inp.bytes.length ∧
      readers = [.buffer { buf := inp.bytes.take n }, .stream inp1] ∧
      inp1.bytes = inp.bytes.drop n ∧ inp1.final = inp.final ∧
      readersResult readers = (inp.bytes, if inp.final = EOF then none else some inp.final) ∧
      (∀ size fuel, 0 < size → inp.bytes.length + inp.chunks.length < fuel →
        ∃ rs, multiReadAll fuel size readers
          = some (rs, inp.bytes, if inp.final = EOF then none else some inp.final)) ∧
      (∃ name, (dec.run { r := inp, w := { buf := [] } }).2 = .ok name ∧
        ParseFormat name = .ok format) ∧
      ((dec.run { r := inp, w := { buf := [] } }).2 = .ok "png" → format = FormatPng) := by
  obtain ⟨hb, hf, hc⟩ := decoderRun_bytes dec { r := inp, w := { buf := [] } }
  simp only [List.nil_append] at hb hf hc
  unfold detectFormat at h
  cases hrun : dec.run { r := inp, w := { buf := [] } } with
  | mk t res =>
    rw [hrun] at hb hf hc
    simp only at hb hf hc
    cases res with
    | error err => simp [hrun] at h
    | ok name =>
      cases hp : ParseFormat name with
      | error e => simp [hrun, hp] at h
      | ok fmt =>
        simp only [hrun, hp, Prod.mk.injEq, Except.ok.injEq] at h
        obtain ⟨h1, h2, h3⟩ := h
        subst h1; subst h2
        have htake : inp.bytes.take t.w.buf.length = t.w.buf := by
          rw [← hb]; simp
        have hdrop : inp.bytes.drop t.w.buf.length = t.r.bytes := by
          rw [← hb]; simp
        have hlen : t.w.buf.length ≤ inp.bytes.length := by
          rw [← hb]; simp
        have hres : readersResult readers
            = (inp.bytes, if inp.final = EOF then none else some inp.final) := by
          rw [← h3]
          by_cases hfe : inp.final = EOF
          · simp [readersResult, hf, hfe, hb]
          · simp [readersResult, hf, hfe, hb]
        have hsize : readersSize readers ≤ inp.bytes.length + inp.chunks.length := by
          rw [← h3]
          simp only [readersSize]
          have : t.w.buf.length + t.r.bytes.length = inp.bytes.length := by
            rw [← hb]; simp
          omega
        refine ⟨t.w.buf.length, hlen, ?_, hdrop.symm, hf, hres, ?_, ⟨name, rfl, hp⟩, ?_⟩
        · rw [htake]; exact h3.symm
        · intro size fuel hpos hfuel
          obtain ⟨rs, hrs⟩ := multiReadAll_spec size hpos fuel readers (by omega)
          rw [hres] at hrs
          exact ⟨rs, hrs⟩
        · intro hpng
          have hn : name = "png" := by simpa using hpng
          rw [hn, ParseFormat_png] at hp
          exact (Except.ok.inj hp).symm

set_option maxRecDepth 100000 in
/-- Witness of C6: the file `onePixelPng` followed by three more bytes, delivered in
three chunks; the header decoder consumes the 67 bytes of the first two. -/
theorem detectFormat_replay_witness :
    detectFormat pngDecodeConfig
        { chunks := [onePixelPng.take 20, onePixelPng.drop 20, [1, 2, 3]], final := EOF }
      = ({ chunks := [[1, 2, 3]], final := EOF },
         .ok (FormatPng, [.buffer { buf := onePixelPng },
                          .stream { chunks := [[1, 2, 3]], final := EOF }])) ∧
    ∃ n, n ≤ 70 ∧
      [AnyReader.buffer { buf := onePixelPng }, .stream { chunks := [[1, 2, 3]], final := EOF }]
        = [.buffer { buf := (onePixelPng ++ [1, 2, 3]).take n },
           .stream { chunks := [[1, 2, 3]], final := EOF }] ∧
      readersResult [.buffer { buf := onePixelPng },
          .stream { chunks := [[1, 2, 3]], final := EOF }]
        = (onePixelPng ++ [1, 2, 3], none) := by
  have hd : detectFormat pngDecodeConfig
        { chunks := [onePixelPng.take 20, onePixelPng.drop 20, [1, 2, 3]], final := EOF }
      = ({ chunks := [[1, 2, 3]], final := EOF },
         .ok (FormatPng, [.buffer { buf := onePixelPng },
                          .stream { chunks := [[1, 2, 3]], final := EOF }])) := by
    rfl
  obtain ⟨n, h1, h2, _, _, h5, _⟩ := detectFormat_replay pngDecodeConfig
    { chunks := [onePixelPng.take 20, onePixelPng.drop 20, [1, 2, 3]], final := EOF }
    { chunks := [[1, 2, 3]], final := EOF } FormatPng
    [.buffer { buf := onePixelPng }, .stream { chunks := [[1, 2, 3]], final := EOF }] hd
  exact ⟨hd, n, h1, h2, h5⟩

/-! ## Properties: the image service -/

/-- C9: for every extension and every behaviour of the lookup of the imaging
library, `FormatFromExtension` returns one of the five formats with a nil error,
or `-1` with `ErrUnsupportedFormat`: the latter whenever the lookup fails or gives
a format outside the five, as for `".webp"`; it never returns `-1` with a nil
error. -/
theorem FormatFromExtension_spec (lookup : String → Except GoError ImagingFormat) (ext : String) :
    (FormatFromExtension lookup ext ∈
      [(FormatJpeg, none), (FormatPng, none), (FormatGif, none), (FormatTiff, none),
       (FormatBmp, none), (-1, some ErrUnsupportedFormat)]) ∧
    (∀ err, lookup ext = .error err →
      FormatFromExtension lookup ext = (-1, some ErrUnsupportedFormat)) ∧
    (∀ format, lookup ext = .ok format →
      format ∉ [imagingJPEG, imagingPNG, imagingGIF, imagingTIFF, imagingBMP] →
      FormatFromExtension lookup ext = (-1, some ErrUnsupportedFormat)) ∧
    (∀ format, lookup ext = .ok format →
      format ∈ [imagingJPEG, imagingPNG, imagingGIF, imagingTIFF, imagingBMP] →
      (FormatFromExtension lookup ext).2 = none ∧
      (FormatFromExtension lookup ext).1.toImaging = format) ∧
    FormatFromExtension lookup ext ≠ (-1, none) ∧
    imagingFormatFromExtension ".webp" = .error (.new "imaging: unsupported image format") ∧
    FormatFromExtension imagingFormatFromExtension ".webp" = (-1, some ErrUnsupportedFormat) := by
  refine ⟨?_, ?_, ?_, ?_, ?_, by rfl, by rfl⟩
  · unfold FormatFromExtension
    cases lookup ext with
    | error e => simp
    | ok format =>
      simp only
      split_ifs <;> simp
  · intro err h
    simp [FormatFromExtension, h]
  · intro format h hn
    simp only [List.mem_cons, List.mem_singleton, not_or, List.mem_nil_iff, or_false] at hn
    simp [FormatFromExtension, h, hn]
  · intro format h hm
    simp only [List.mem_cons, List.mem_singleton, List.mem_nil_iff, or_false] at hm
    rcases hm with hm | hm | hm | hm | hm <;> subst hm <;>
      simp [FormatFromExtension, h, imagingJPEG, imagingPNG, imagingGIF, imagingTIFF, imagingBMP,
        Format.toImaging, FormatJpeg, FormatPng, FormatGif, FormatTiff, FormatBmp]
  · unfold FormatFromExtension
    cases lookup ext with
    | error e => simp
    | ok format =>
      simp only
      split_ifs <;> simp [FormatJpeg, FormatPng, FormatGif, FormatTiff, FormatBmp]

/-- The result of `Resize`, by the outcome of the acquisition. -/
theorem Resize_eq {Image : Type} (codec : Codec Image) (s : Service) (ctx : Context)
    (inp : Stream) (width height : Int) (out : Bytes) (options : List ResizeOption) :
    (∀ fault, s.sem.Acquire ctx 1 = .error fault →
      Resize codec s ctx inp width height out options = .error fault) ∧
    (∀ sem1 err, s.sem.Acquire ctx 1 = .ok (sem1, some err) →
      sem1 = s.sem ∧
      Resize codec s ctx inp width height out options = .ok (s, inp, out, some err)) ∧
    (∀ sem1, s.sem.Acquire ctx 1 = .ok (sem1, none) →
      sem1 = { s.sem with count := s.sem.count + 1, log := s.sem.log ++ [.acquire 1] } ∧
      Resize codec s ctx inp width height out options
        = .ok ({ sem := { s.sem with log := s.sem.log ++ [.acquire 1, .release 1] } },
            resizeBody codec inp width height out options)) := by
  refine ⟨?_, ?_, ?_⟩
  · intro fault h
    simp [Resize, h, bind, Except.bind]
  · intro sem1 err h
    have hs : sem1 = s.sem := by
      unfold Semaphore.Acquire at h
      simp only [one_ne_zero, if_false] at h
      cases hc : ctx.err with
      | some e => simp [hc] at h; exact h.1.symm
      | none =>
        simp only [hc] at h
        by_cases hfree : s.sem.count + 1 ≤ s.sem.limit
        · simp [hfree] at h
        · simp only [hfree, if_false] at h
          cases hl : ctx.later with
          | some e => simp [hl] at h; exact h.1.symm
          | none => simp [hl] at h
    subst hs
    exact ⟨rfl, by simp [Resize, h, bind, Except.bind, pure, Except.pure]⟩
  · intro sem1 h
    have hs : sem1 = { s.sem with count := s.sem.count + 1, log := s.sem.log ++ [.acquire 1] } := by
      unfold Semaphore.Acquire at h
      simp only [one_ne_zero, if_false] at h
      cases hc : ctx.err with
      | some e => simp [hc] at h
      | none =>
        simp only [hc] at h
        by_cases hfree : s.sem.count + 1 ≤ s.sem.limit
        · simp [hfree] at h; exact h.symm
        · simp only [hfree, if_false] at h
          cases hl : ctx.later with
          | some e => simp [hl] at h
          | none => simp [hl] at h
    refine ⟨hs, ?_⟩
    subst hs
    simp [Resize, h, bind, Except.bind, pure, Except.pure, Semaphore.Release]

/-- C8: for every call of `Resize`: when the acquisition fails, the call returns
the error with the semaphore, the input stream and the output as they were (no
release, nothing read, nothing written); when it succeeds, the call returns
whatever the body returns (detection failure, decode failure, encode failure or
success) after exactly one acquisition and one release of one slot; when the
acquisition blocks for ever the call does not return. Whenever the call returns,
as many slots are held as before. -/
theorem Resize_gate {Image : Type} (codec : Codec Image) (s : Service) (ctx : Context)
    (inp : Stream) (width height : Int) (out : Bytes) (options : List ResizeOption) :
    (∀ sem1 err, s.sem.Acquire ctx 1 = .ok (sem1, some err) →
      Resize codec s ctx inp width height out options = .ok (s, inp, out, some err)) ∧
    (∀ sem1, s.sem.Acquire ctx 1 = .ok (sem1, none) →
      sem1.count = s.sem.count + 1 ∧
      ∃ inp1 out1 ret, resizeBody codec inp width height out options = (inp1, out1, ret) ∧
        Resize codec s ctx inp width height out options
          = .ok ({ sem := { limit := s.sem.limit, count := s.sem.count,
                            log := s.sem.log ++ [.acquire 1, .release 1] } },
              inp1, out1, ret)) ∧
    (∀ fault, s.sem.Acquire ctx 1 = .error fault →
      Resize codec s ctx inp width height out options = .error fault) ∧
    (∀ s1 inp1 out1 ret,
      Resize codec s ctx inp width height out options = .ok (s1, inp1, out1, ret) →
      s1.sem.count = s.sem.count ∧ s1.sem.limit = s.sem.limit ∧
      (s1.sem.log = s.sem.log ∨ s1.sem.log = s.sem.log ++ [.acquire 1, .release 1])) := by
  obtain ⟨hfault, hfail, hok⟩ := Resize_eq codec s ctx inp width height out options
  refine ⟨fun sem1 err h => (hfail sem1 err h).2, ?_, hfault, ?_⟩
  · intro sem1 h
    obtain ⟨hs, hr⟩ := hok sem1 h
    refine ⟨by rw [hs], _, _, _, rfl, hr⟩
  · intro s1 inp1 out1 ret hres
    cases hacq : s.sem.Acquire ctx 1 with
    | error fault =>
      rw [hfault fault hacq] at hres
      simp at hres
    | ok r =>
      obtain ⟨sem1, e⟩ := r
      cases e with
      | some err =>
        rw [(hfail sem1 err hacq).2] at hres
        simp only [Except.ok.injEq, Prod.mk.injEq] at hres
        rw [← hres.1]
        exact ⟨rfl, rfl, Or.inl rfl⟩
      | none =>
        rw [(hok sem1 hacq).2] at hres
        simp only [Except.ok.injEq, Prod.mk.injEq] at hres
        rw [← hres.1]
        exact ⟨rfl, rfl, Or.inr rfl⟩

theorem toImaging_other (f : Format)
    (hf : f ∉ [FormatJpeg, FormatPng, FormatGif, FormatTiff, FormatBmp]) :
    f.toImaging = imagingJPEG := by
  simp only [List.mem_cons, List.mem_singleton, not_or, List.mem_nil_iff, or_false] at hf
  simp [Format.toImaging, hf]

theorem ParseFormat_error (name : String) (h : name ∉ formatNames) :
    ∃ err, ParseFormat name = .error err := by
  simp only [formatNames, List.mem_cons, List.mem_singleton, not_or, List.mem_nil_iff,
    or_false] at h
  refine ⟨.new (name ++ " is not a valid Format"), ?_⟩
  simp [ParseFormat, h]

/-- Detection fails with an error matching `ErrUnsupportedFormat` when the header
decoder fails or reports a name outside the enum. -/
theorem detectFormat_error (dec : Decoder) (inp : Stream)
    (hname : ∀ name, (dec.run { r := inp, w := { buf := [] } }).2 = .ok name →
      name ∉ formatNames) :
    ∃ inp1 err, detectFormat dec inp = (inp1, .error err) ∧
      errorsIs err ErrUnsupportedFormat = true := by
  cases hrun : dec.run { r := inp, w := { buf := [] } } with
  | mk t res =>
    cases res with
    | error err =>
      refine ⟨t.r, .wrap (err.Error ++ ": " ++ ErrUnsupportedFormat.Error) ErrUnsupportedFormat,
        ?_, ?_⟩
      · simp only [detectFormat, hrun]
      · simp [errorsIs, ErrUnsupportedFormat]
    | ok name =>
      have hn := hname name (by rw [hrun])
      obtain ⟨e, he⟩ := ParseFormat_error name hn
      refine ⟨t.r, ErrUnsupportedFormat, ?_, ?_⟩
      · simp only [detectFormat, hrun, he]
      · simp [errorsIs, ErrUnsupportedFormat]

theorem foldl_WithFormat (options : List ResizeOption) (f : Format) (c : resizeConfig) :
    (options ++ [WithFormat f]).foldl (fun config option => option config) c
      = { options.foldl (fun config option => option config) c with format := f } := by
  simp [List.foldl_append, WithFormat]

/-- The result of `Resize` when the slot is acquired and detection and decoding
succeed: the image resized by the mode and quality of the options, encoded in the
`imaging.Format` of the configured format. -/
theorem Resize_encode {Image : Type} (codec : Codec Image) (s : Service) (ctx : Context)
    (inp inp1 : Stream) (width height : Int) (out : Bytes) (options : List ResizeOption)
    (sem1 : Semaphore) (format : Format) (readers rs : List AnyReader) (img : Image)
    (config : resizeConfig)
    (hconfig : config = options.foldl (fun config option => option config)
      { format := format, resizeMode := ResizeModeFit, quality := QualityMedium })
    (hacq : s.sem.Acquire ctx 1 = .ok (sem1, none))
    (hdet : detectFormat codec.decodeConfig inp = (inp1, .ok (format, readers)))
    (hdec : codec.decode readers = (rs, .ok img)) :
    Resize codec s ctx inp width height out options
      = .ok ({ sem := { s.sem with log := s.sem.log ++ [.acquire 1, .release 1] } },
          remainingInput inp.final rs,
          out ++ (codec.encode
            (if config.resizeMode = ResizeModeFill then
              codec.fill img width height config.quality.resampleFilter
            else codec.fit img width height config.quality.resampleFilter)
            config.format.toImaging).1,
          (codec.encode
            (if config.resizeMode = ResizeModeFill then
              codec.fill img width height config.quality.resampleFilter
            else codec.fit img width height config.quality.resampleFilter)
            config.format.toImaging).2) := by
  obtain ⟨_, _, hc⟩ := Resize_eq codec s ctx inp width height out options
  rw [(hc sem1 hacq).2]
  subst hconfig
  simp only [resizeBody, hdet, hdec]

/-- C7, as amended: a format `f` outside the five requested with `WithFormat` is not
refused. `toImaging` maps it to `imaging.JPEG`, so the call returns exactly what it
returns with `WithFormat(FormatJpeg)` in its place; when the slot is acquired and
detection and decoding succeed, the image is encoded as `imaging.JPEG` and the error
returned is the encoder's, nil when the encoder succeeds. When the slot is acquired
and the header decoder fails, or reports a format name outside the five, `Resize`
returns an error matching `ErrUnsupportedFormat`, with nothing written to the
output. -/
theorem Resize_format_spec :
    (∀ f : Format, f ∉ [FormatJpeg, FormatPng, FormatGif, FormatTiff, FormatBmp] →
      f.toImaging = imagingJPEG) ∧
    (∀ (Image : Type) (codec : Codec Image) (s : Service) (ctx : Context) (inp : Stream)
        (width height : Int) (out : Bytes) (options : List ResizeOption) (f : Format),
      f ∉ [FormatJpeg, FormatPng, FormatGif, FormatTiff, FormatBmp] →
      Resize codec s ctx inp width height out (options ++ [WithFormat f])
        = Resize codec s ctx inp width height out (options ++ [WithFormat FormatJpeg])) ∧
    (∀ (Image : Type) (codec : Codec Image) (s : Service) (ctx : Context) (inp inp1 : Stream)
        (width height : Int) (out : Bytes) (options : List ResizeOption) (f : Format)
        (sem1 : Semaphore) (format : Format) (readers rs : List AnyReader) (img : Image),
      f ∉ [FormatJpeg, FormatPng, FormatGif, FormatTiff, FormatBmp] →
      s.sem.Acquire ctx 1 = .ok (sem1, none) →
      detectFormat codec.decodeConfig inp = (inp1, .ok (format, readers)) →
      codec.decode readers = (rs, .ok img) →
      ∀ config : resizeConfig,
        config = options.foldl (fun config option => option config)
          { format := format, resizeMode := ResizeModeFit, quality := QualityMedium } →
        Resize codec s ctx inp width height out (options ++ [WithFormat f])
          = .ok ({ sem := { s.sem with log := s.sem.log ++ [.acquire 1, .release 1] } },
              remainingInput inp.final rs,
              out ++ (codec.encode
                (if config.resizeMode = ResizeModeFill then
                  codec.fill img width height config.quality.resampleFilter
                else codec.fit img width height config.quality.resampleFilter)
                imagingJPEG).1,
              (codec.encode
                (if config.resizeMode = ResizeModeFill then
                  codec.fill img width height config.quality.resampleFilter
                else codec.fit img width height config.quality.resampleFilter)
                imagingJPEG).2)) ∧
    (∀ (Image : Type) (codec : Codec Image) (s : Service) (ctx : Context) (inp : Stream)
        (width height : Int) (out : Bytes) (options : List ResizeOption) (sem1 : Semaphore),
      s.sem.Acquire ctx 1 = .ok (sem1, none) →
      (∀ name, (codec.decodeConfig.run { r := inp, w := { buf := [] } }).2 = .ok name →
        name ∉ formatNames) →
      ∃ s1 inp1 err, Resize codec s ctx inp width height out options
          = .ok (s1, inp1, out, some err) ∧ errorsIs err ErrUnsupportedFormat = true) := by
  refine ⟨toImaging_other, ?_, ?_, ?_⟩
  · intro Image codec s ctx inp width height out options f hf
    have hbody : resizeBody codec inp width height out (options ++ [WithFormat f])
        = resizeBody codec inp width height out (options ++ [WithFormat FormatJpeg]) := by
      unfold resizeBody
      cases hd : detectFormat codec.decodeConfig inp with
      | mk inp1 res =>
        cases res with
        | error err => rfl
        | ok fr =>
          obtain ⟨format, readers⟩ := fr
          simp only [foldl_WithFormat, toImaging_other f hf]
          rfl
    obtain ⟨ha, hb, hc⟩ := Resize_eq codec s ctx inp width height out (options ++ [WithFormat f])
    obtain ⟨ha1, hb1, hc1⟩ :=
      Resize_eq codec s ctx inp width height out (options ++ [WithFormat FormatJpeg])
    cases hacq : s.sem.Acquire ctx 1 with
    | error fault => rw [ha fault hacq, ha1 fault hacq]
    | ok r =>
      obtain ⟨sem1, e⟩ := r
      cases e with
      | some err => rw [(hb sem1 err hacq).2, (hb1 sem1 err hacq).2]
      | none => rw [(hc sem1 hacq).2, (hc1 sem1 hacq).2, hbody]
  · intro Image codec s ctx inp inp1 width height out options f sem1 format readers rs img hf
      hacq hdet hdec config hconfig
    have h := Resize_encode codec s ctx inp inp1 width height out (options ++ [WithFormat f])
      sem1 format readers rs img _ rfl hacq hdet hdec
    simp only [foldl_WithFormat, toImaging_other f hf] at h
    rw [h, hconfig]
  · intro Image codec s ctx inp width height out options sem1 hacq hname
    obtain ⟨_, _, hc⟩ := Resize_eq codec s ctx inp width height out options
    rw [(hc sem1 hacq).2]
    obtain ⟨inp1, err, hdet, hmatch⟩ := detectFormat_error codec.decodeConfig inp hname
    refine ⟨{ sem := { s.sem with log := s.sem.log ++ [.acquire 1, .release 1] } }, inp1, err,
      ?_, hmatch⟩
    simp only [resizeBody, hdet]

set_option maxRecDepth 100000 in
/-- The 10 bytes of a PNG signature followed by `[1, 2]` are no image: the header
decoder meets the end of the stream inside the first chunk, and `Resize` fails with
an error matching `ErrUnsupportedFormat`, whatever format is requested. -/
theorem Resize_truncated_png (written : ImagingFormat → Bytes) :
    Resize (onePixelCodec written) (Service.New 1) { err := none, later := none }
        { chunks := [pngSignature ++ [1, 2]], final := EOF } 10 10 [] [WithFormat 99]
      = .ok ({ sem := { limit := 1, count := 0, log := [.acquire 1, .release 1] } },
             { chunks := [], final := EOF }, [],
             some (.wrap "unexpected EOF: unsupported image format" ErrUnsupportedFormat)) := by
  rfl

set_option maxRecDepth 100000 in
/-- Counterexample to C7 as stated: `Format(99)` is none of the five, and `Resize`
with `WithFormat(99)` on a complete PNG file does not fail: the slot is acquired and
released, the whole input is read, what the JPEG encoder writes (whatever bytes
these are) is the output, and the error is nil. -/
theorem Resize_WithFormat_counterexample :
    (99 : Format) ∉ [FormatJpeg, FormatPng, FormatGif, FormatTiff, FormatBmp] ∧
    ∀ written : ImagingFormat → Bytes,
      Resize (onePixelCodec written) (Service.New 1) { err := none, later := none }
          { chunks := [onePixelPng], final := EOF } 10 10 [] [WithFormat 99]
        = .ok ({ sem := { limit := 1, count := 0, log := [.acquire 1, .release 1] } },
               { chunks := [], final := EOF }, written imagingJPEG, none) := by
  constructor
  · decide
  · intro written
    rfl

/-! ## Properties: the in-memory filesystem -/

theorem lookupNode_eraseNode (l : List (String × Node)) (p : String) :
    lookupNode (eraseNode l p) p = none := by
  induction l with
  | nil => rfl
  | cons e rest ih =>
    obtain ⟨q, n⟩ := e
    by_cases hq : q = p
    · simp [eraseNode, hq, ih]
    · simp [eraseNode, lookupNode, hq, ih]

theorem eraseNode_subset (l : List (String × Node)) (p : String) (e : String × Node)
    (h : e ∈ eraseNode l p) : e ∈ l := by
  induction l with
  | nil => simp [eraseNode] at h
  | cons x rest ih =>
    obtain ⟨q, m⟩ := x
    by_cases hq : q = p
    · simp only [eraseNode, hq, if_true] at h
      exact List.mem_cons_of_mem _ (ih h)
    · simp only [eraseNode, hq, if_false, List.mem_cons] at h
      rcases h with h | h
      · rw [h]; exact List.mem_cons_self _ _
      · exact List.mem_cons_of_mem _ (ih h)

theorem errorsIs_pathError (op path : String) :
    errorsIs (pathError op path ErrNotExist) ErrNotExist = true := by
  simp [pathError, errorsIs, ErrNotExist]

/-- ENOTDIR is not a not-exist error. -/
theorem errorsIs_notDir (op path : String) :
    errorsIs (pathError op path (.new "not a directory")) ErrNotExist = false := by
  simp [pathError, errorsIs, ErrNotExist]

theorem startsWith_length :
    ∀ pre l : List Char, startsWith pre l = true → pre.length ≤ l.length
  | [], _, _ => by simp
  | _ :: _, [], h => by simp [startsWith] at h
  | a :: pre, b :: l, h => by
    simp only [startsWith, Bool.and_eq_true] at h
    have := startsWith_length pre l h.2
    simp only [List.length_cons]
    omega

/-- A proper ancestor is a shorter path. -/
theorem isAncestor_length (q p : String) (h : isAncestor q p = true) : q.length < p.length := by
  have hl := startsWith_length _ _ h
  simp only [List.length_append, List.length_singleton] at hl
  show q.data.length < p.data.length
  omega

theorem blocked_false (s : MemFs) (path : String) :
    s.blocked path = false ↔
      ∀ e ∈ s.nodes, ∀ data, e.2 = .file data → isAncestor e.1 (cleanPath path) = false := by
  unfold MemFs.blocked
  rw [List.any_eq_false]
  constructor
  · intro h e he data hd
    have := h e he
    rw [hd] at this
    simpa using this
  · intro h e he
    cases hn : e.2 with
    | dir => simp
    | file data => simpa using h e he data hn

/-- A directory blocks nothing. -/
theorem blocked_cons_dir (s : MemFs) (q path : String) :
    MemFs.blocked { nodes := (q, .dir) :: s.nodes } path = s.blocked path := by
  simp [MemFs.blocked]

/-- A node put under a path does not block the path itself. -/
theorem blocked_cons_self (nodes : List (String × Node)) (path : String) (n : Node)
    (h : MemFs.blocked { nodes := nodes } path = false) :
    MemFs.blocked { nodes := (cleanPath path, n) :: nodes } path = false := by
  rw [blocked_false] at h ⊢
  intro e he data hd
  rcases List.mem_cons.1 he with he | he
  · rw [he]
    by_contra hc
    have := isAncestor_length _ _ (by simpa using hc)
    omega
  · exact h e he data hd

/-- Taking a node away blocks nothing more. -/
theorem blocked_erase (s : MemFs) (p path : String) (h : s.blocked path = false) :
    MemFs.blocked { nodes := eraseNode s.nodes p } path = false := by
  rw [blocked_false] at h ⊢
  intro e he data hd
  exact h e (eraseNode_subset _ _ _ he) data hd

/-- After a successful `WriteFile`, the path is not the root, can be resolved and
holds the data. -/
theorem WriteFile_ok (s s1 : MemFs) (path : String) (data : Bytes)
    (h : MemFs.WriteFile s path data = (s1, none)) :
    isRoot (cleanPath path) = false ∧ s1.blocked path = false ∧
      lookupNode s1.nodes (cleanPath path) = some (.file data) := by
  unfold MemFs.WriteFile at h
  have hroot : isRoot (cleanPath path) = false := by
    by_contra hr
    have hr1 : isRoot (cleanPath path) = true := by simpa using hr
    simp [MemFs.stat, hr1] at h
  have hblk : s.blocked path = false := by
    by_contra hb
    have hb1 : s.blocked path = true := by simpa using hb
    simp [MemFs.stat, MemFs.parentError, hroot, hb1] at h
  refine ⟨hroot, ?_⟩
  cases hst : s.stat path with
  | none =>
    rw [hst] at h
    cases hpe : s.parentError "open" path with
    | some err => simp [hpe] at h
    | none =>
      simp only [hpe, Prod.mk.injEq, and_true] at h
      rw [← h]
      exact ⟨blocked_cons_self _ _ _ hblk, by simp [lookupNode]⟩
  | some node =>
    rw [hst] at h
    cases node with
    | dir => simp at h
    | file c =>
      simp only [Prod.mk.injEq, and_true] at h
      rw [← h]
      exact ⟨blocked_cons_self _ _ _ (blocked_erase s _ _ hblk), by simp [lookupNode]⟩

/-- Opening and reading a path that holds a file gives its content. -/
theorem Load_file (f : FileCache MemFs) (key : Bytes) (data : Bytes)
    (hroot : isRoot (cleanPath (keyPath key)) = false)
    (hblk : f.disk.blocked (keyPath key) = false)
    (hfile : lookupNode f.disk.nodes (cleanPath (keyPath key)) = some (.file data)) :
    Load memFs f key = .ok (f, some data, true, none) := by
  rw [Load_eq]
  simp [memFs, MemFs.Open, MemFs.stat, hroot, hblk, hfile, MemFs.ReadAll, MemFs.Close]

/-- Opening a path that holds nothing is a miss. -/
theorem Load_absent (f : FileCache MemFs) (key : Bytes)
    (hroot : isRoot (cleanPath (keyPath key)) = false)
    (hblk : f.disk.blocked (keyPath key) = false)
    (hnone : lookupNode f.disk.nodes (cleanPath (keyPath key)) = none) :
    Load memFs f key = .ok (f, none, false, none) := by
  rw [Load_eq]
  simp [memFs, MemFs.Open, MemFs.stat, MemFs.statError, hroot, hblk, hnone, errorsIs_pathError]

/-- `Remove` of a path that holds a file takes the file away. -/
theorem Remove_file (s : MemFs) (path : String) (data : Bytes)
    (hroot : isRoot (cleanPath path) = false) (hblk : s.blocked path = false)
    (hfile : lookupNode s.nodes (cleanPath path) = some (.file data)) :
    MemFs.Remove s path = ({ nodes := eraseNode s.nodes (cleanPath path) }, none) := by
  simp [MemFs.Remove, MemFs.stat, hroot, hblk, hfile]

/-- `Remove` of a path that holds nothing fails with a not-exist error. -/
theorem Remove_absent (s : MemFs) (path : String)
    (hroot : isRoot (cleanPath path) = false) (hblk : s.blocked path = false)
    (hnone : lookupNode s.nodes (cleanPath path) = none) :
    MemFs.Remove s path = (s, some (pathError "remove" path ErrNotExist)) := by
  simp [MemFs.Remove, MemFs.stat, MemFs.statError, hroot, hblk, hnone]

/-- `Remove` of a path under a regular file fails with ENOTDIR. -/
theorem Remove_blocked (s : MemFs) (path : String)
    (hroot : isRoot (cleanPath path) = false) (hblk : s.blocked path = true) :
    MemFs.Remove s path = (s, some (pathError "remove" path (.new "not a directory"))) := by
  simp [MemFs.Remove, MemFs.stat, MemFs.statError, hroot, hblk]

/-- On the in-memory filesystem, from a cache at rest, when `MkdirAll` and
`WriteFile` succeed, `Store` returns nil and the following `Load` returns the value. -/
theorem Store_Load_of_success (f : FileCache MemFs) (key value : Bytes) (hidle : f.Idle)
    (hmkdir : (MemFs.MkdirAll f.disk (filepathDir (keyPath key))).2 = none)
    (hwrite : (MemFs.WriteFile (MemFs.MkdirAll f.disk (filepathDir (keyPath key))).1
      (keyPath key) value).2 = none) :
    getFileName key = .ok (keyPath key) ∧
      ∃ f1 : FileCache MemFs, Store memFs f key value = .ok (f1, none) ∧ f1.Idle ∧
        Load memFs f1 key = .ok (f1, some value, true, none) := by
  refine ⟨getFileName_eq key, ?_⟩
  have hs := Store_eq memFs f key value hidle
  cases hmk : MemFs.MkdirAll f.disk (filepathDir (keyPath key)) with
  | mk d e =>
    rw [hmk] at hmkdir hwrite
    simp only at hmkdir hwrite
    subst hmkdir
    cases hwr : MemFs.WriteFile d (keyPath key) value with
    | mk d1 e1 =>
      rw [hwr] at hwrite
      simp only at hwrite
      subst hwrite
      have hs1 : Store memFs f key value
          = .ok ({ (getScopedLocks f key).1 with disk := d1 }, none) := by
        rw [hs]
        simp only [memFs, hmk, hwr]
      refine ⟨_, hs1, Store_idle memFs f key value hidle _ _ hs1, ?_⟩
      obtain ⟨hroot, hblk, hfile⟩ := WriteFile_ok d d1 (keyPath key) value hwr
      exact Load_file _ key value hroot hblk hfile

/-- On the in-memory filesystem, from a cache at rest, when `MkdirAll` and
`WriteFile` succeed, `Store` returns nil, the following `Delete` returns nil and the
`Load` after it misses. -/
theorem Store_Delete_Load_of_success (f : FileCache MemFs) (key v1 : Bytes) (hidle : f.Idle)
    (hmkdir : (MemFs.MkdirAll f.disk (filepathDir (keyPath key))).2 = none)
    (hwrite : (MemFs.WriteFile (MemFs.MkdirAll f.disk (filepathDir (keyPath key))).1
      (keyPath key) v1).2 = none) :
    ∃ f1 f2 : FileCache MemFs, Store memFs f key v1 = .ok (f1, none) ∧
      Delete memFs f1 key = .ok (f2, none) ∧ f2.Idle ∧
      Load memFs f2 key = .ok (f2, none, false, none) := by
  have hs := Store_eq memFs f key v1 hidle
  cases hmk : MemFs.MkdirAll f.disk (filepathDir (keyPath key)) with
  | mk d e =>
    rw [hmk] at hmkdir hwrite
    simp only at hmkdir hwrite
    subst hmkdir
    cases hwr : MemFs.WriteFile d (keyPath key) v1 with
    | mk d1 e1 =>
      rw [hwr] at hwrite
      simp only at hwrite
      subst hwrite
      have hs1 : Store memFs f key v1
          = .ok ({ (getScopedLocks f key).1 with disk := d1 }, none) := by
        rw [hs]
        simp only [memFs, hmk, hwr]
      have hidle1 := Store_idle memFs f key v1 hidle _ _ hs1
      obtain ⟨hroot, hblk, hfile⟩ := WriteFile_ok d d1 (keyPath key) v1 hwr
      have hd := Delete_eq memFs _ key hidle1
      have hrm : memFs.Remove d1 (keyPath key)
          = ({ nodes := eraseNode d1.nodes (cleanPath (keyPath key)) }, none) :=
        Remove_file d1 (keyPath key) v1 hroot hblk hfile
      simp only [hrm] at hd
      refine ⟨_, _, hs1, hd, Delete_idle memFs _ key hidle1 _ _ hd, ?_⟩
      apply Load_absent _ key hroot (blocked_erase d1 _ _ hblk)
      exact lookupNode_eraseNode _ _

/-- The error of `Delete` on any filesystem, and its corollaries on the in-memory
filesystem, by what the path of the key holds. -/
theorem Delete_cases :
    (∀ (σ File : Type) (fs : Fs σ File) (f : FileCache σ) (key : Bytes), f.Idle →
      getFileName key = .ok (keyPath key) ∧
      ∃ (f1 : FileCache σ) (ret : Option GoError), Delete fs f key = .ok (f1, ret) ∧ f1.Idle ∧
        ((∃ e, ret = some e) ↔
          ∃ e, (fs.Remove f.disk (keyPath key)).2 = some e ∧ errorsIs e ErrNotExist = false) ∧
        ∀ e, ret = some e → (fs.Remove f.disk (keyPath key)).2 = some e) ∧
    (∀ (g : FileCache MemFs) (key : Bytes), g.Idle → g.disk.blocked (keyPath key) = false →
      g.disk.stat (keyPath key) = none →
      ∃ g1 : FileCache MemFs, Delete memFs g key = .ok (g1, none)) ∧
    (∀ (g : FileCache MemFs) (key : Bytes), g.Idle → g.disk.blocked (keyPath key) = false →
      g.disk.stat (keyPath key) ≠ some .dir →
      ∃ g1 g2 : FileCache MemFs, Delete memFs g key = .ok (g1, none) ∧
        Delete memFs g1 key = .ok (g2, none)) := by
  refine ⟨?_, ?_, ?_⟩
  · intro σ File fs f key hidle
    have hd := Delete_eq fs f key hidle
    refine ⟨getFileName_eq key, _, _, hd, Delete_idle fs f key hidle _ _ hd, ?_, ?_⟩
    · cases (fs.Remove f.disk (keyPath key)).2 with
      | none => simp
      | some err =>
        by_cases he : errorsIs err ErrNotExist = true
        · simp [he]
        · simp [he]
    · intro e
      cases (fs.Remove f.disk (keyPath key)).2 with
      | none => simp
      | some err =>
        by_cases he : errorsIs err ErrNotExist = true
        · simp [he]
        · simp [he]
  · intro g key hidle hblk hnone
    have hroot : isRoot (cleanPath (keyPath key)) = false := by
      by_contra hr
      have hr1 : isRoot (cleanPath (keyPath key)) = true := by simpa using hr
      simp [MemFs.stat, hr1] at hnone
    have hlk : lookupNode g.disk.nodes (cleanPath (keyPath key)) = none := by
      simpa [MemFs.stat, hroot, hblk] using hnone
    have hd := Delete_eq memFs g key hidle
    have hrm : memFs.Remove g.disk (keyPath key)
        = (g.disk, some (pathError "remove" (keyPath key) ErrNotExist)) :=
      Remove_absent g.disk (keyPath key) hroot hblk hlk
    simp only [hrm, errorsIs_pathError, if_true] at hd
    exact ⟨_, hd⟩
  · intro g key hidle hblk hnodir
    have hroot : isRoot (cleanPath (keyPath key)) = false := by
      by_contra hr
      have hr1 : isRoot (cleanPath (keyPath key)) = true := by simpa using hr
      simp [MemFs.stat, hr1] at hnodir
    have hd := Delete_eq memFs g key hidle
    cases hlk : lookupNode g.disk.nodes (cleanPath (keyPath key)) with
    | none =>
      have hrm : memFs.Remove g.disk (keyPath key)
          = (g.disk, some (pathError "remove" (keyPath key) ErrNotExist)) :=
        Remove_absent g.disk (keyPath key) hroot hblk hlk
      simp only [hrm, errorsIs_pathError, if_true] at hd
      have hidle1 := Delete_idle memFs g key hidle _ _ hd
      have hd1 := Delete_eq memFs _ key hidle1
      have hrm1 : memFs.Remove g.disk (keyPath key)
          = (g.disk, some (pathError "remove" (keyPath key) ErrNotExist)) := hrm
      simp only [hrm1, errorsIs_pathError, if_true] at hd1
      exact ⟨_, _, hd, hd1⟩
    | some node =>
      cases node with
      | dir => simp [MemFs.stat, hroot, hblk, hlk] at hnodir
      | file data =>
        have hrm : memFs.Remove g.disk (keyPath key)
            = ({ nodes := eraseNode g.disk.nodes (cleanPath (keyPath key)) }, none) :=
          Remove_file g.disk (keyPath key) data hroot hblk hlk
        simp only [hrm] at hd
        have hidle1 := Delete_idle memFs g key hidle _ _ hd
        have hd1 := Delete_eq memFs _ key hidle1
        have hrm1 : memFs.Remove { nodes := eraseNode g.disk.nodes (cleanPath (keyPath key)) }
            (keyPath key)
            = ({ nodes := eraseNode g.disk.nodes (cleanPath (keyPath key)) },
               some (pathError "remove" (keyPath key) ErrNotExist)) :=
          Remove_absent _ (keyPath key) hroot (blocked_erase g.disk _ _ hblk)
            (lookupNode_eraseNode _ _)
        simp only [hrm1, errorsIs_pathError, if_true] at hd1
        exact ⟨_, _, hd, hd1⟩

/-! ## Properties: the paths of the cache on the in-memory filesystem -/

theorem hextable_plain (c : Char) (h : c ∈ hextable) : Plain c := by
  have : ∀ x ∈ hextable, x ≠ '/' ∧ x ≠ '.' := by decide
  exact this c h

theorem splitSlash_plain (l : List Char) (h : ∀ c ∈ l, Plain c) : splitSlash l = [l] := by
  induction l with
  | nil => rfl
  | cons c cs ih =>
    have hc : c ≠ '/' := (h c (List.mem_cons_self _ _)).1
    have hcs := ih (fun x hx => h x (List.mem_cons_of_mem _ hx))
    simp [splitSlash, hc, hcs]

theorem dropWhile_all {α : Type} (p : α → Bool) (l1 l2 : List α) (h : ∀ x ∈ l1, p x = true) :
    (l1 ++ l2).dropWhile p = l2.dropWhile p := by
  induction l1 with
  | nil => rfl
  | cons x xs ih =>
    have hx : p x = true := h x (List.mem_cons_self _ _)
    simp [List.dropWhile, hx, ih (fun y hy => h y (List.mem_cons_of_mem _ hy))]

/-- The hex digest of a key starts with three plain characters, and is plain. -/
theorem hash_shape (key : Bytes) :
    ∃ a b c rest, hexEncodeToString (sha1Sum key) = a :: b :: c :: rest ∧
      Plain a ∧ Plain b ∧ Plain c ∧ (∀ x ∈ rest, Plain x) ∧ rest.length = 37 := by
  have hl := hash_length key
  have hm := hexEncodeToString_mem (sha1Sum key)
  generalize hexEncodeToString (sha1Sum key) = h at hl hm
  match h, hl, hm with
  | a :: b :: c :: rest, hl, hm =>
    refine ⟨a, b, c, rest, rfl, hextable_plain _ (hm a (by simp)), hextable_plain _ (hm b (by simp)),
      hextable_plain _ (hm c (by simp)), fun x hx => hextable_plain _ (hm x (by simp [hx])), ?_⟩
    simpa using hl

/-- The path of a key, character by character. -/
theorem keyPath_shape (key : Bytes) :
    ∃ a b c rest, keyPath key = String.mk (a :: '/' :: b :: c :: '/' :: a :: b :: c :: rest) ∧
      Plain a ∧ Plain b ∧ Plain c ∧ (∀ x ∈ rest, Plain x) ∧ rest.length = 37 := by
  obtain ⟨a, b, c, rest, hh, ha, hb, hc, hr, hlen⟩ := hash_shape key
  refine ⟨a, b, c, rest, ?_, ha, hb, hc, hr, hlen⟩
  simp [keyPath, hh]

theorem clean_file (a b c : Char) (rest : List Char) (ha : Plain a) (hb : Plain b) (hc : Plain c)
    (hr : ∀ x ∈ rest, Plain x) :
    filepathClean (a :: '/' :: b :: c :: '/' :: a :: b :: c :: rest)
      = a :: '/' :: b :: c :: '/' :: a :: b :: c :: rest := by
  have hs : splitSlash rest = [rest] := splitSlash_plain rest hr
  obtain ⟨ha1, ha2⟩ := ha
  obtain ⟨hb1, hb2⟩ := hb
  obtain ⟨hc1, hc2⟩ := hc
  simp [filepathClean, splitSlash, hs, ha1, hb1, hc1, cleanStep, ha2, hb2, List.intercalate]

theorem clean_dir2 (a b c : Char) (ha : Plain a) (hb : Plain b) (hc : Plain c) :
    filepathClean [a, '/', b, c, '/'] = [a, '/', b, c] ∧
    filepathClean [a, '/', b, c] = [a, '/', b, c] ∧
    filepathClean [a, '/'] = [a] ∧ filepathClean [a] = [a] ∧ filepathClean [] = ['.'] := by
  obtain ⟨ha1, ha2⟩ := ha
  obtain ⟨hb1, hb2⟩ := hb
  obtain ⟨hc1, hc2⟩ := hc
  refine ⟨?_, ?_, ?_, ?_, ?_⟩ <;>
    simp [filepathClean, splitSlash, ha1, hb1, hc1, cleanStep, ha2, hb2, List.intercalate]

theorem isRoot_mk (l : List Char) :
    isRoot (String.mk l) = (decide (l = ['.']) || decide (l = ['/'])) := by
  have h1 : (String.mk l = ".") = (l = ['.']) := by
    apply propext
    constructor
    · intro h; exact congrArg String.data h
    · intro h; rw [h]
  have h2 : (String.mk l = "/") = (l = ['/']) := by
    apply propext
    constructor
    · intro h; exact congrArg String.data h
    · intro h; rw [h]
  simp only [isRoot, h1, h2]

/-- The cleaned forms, parents and root tests of the three paths of a key. -/
theorem paths_of_key (a b c : Char) (rest : List Char) (ha : Plain a) (hb : Plain b)
    (hc : Plain c) (hr : ∀ x ∈ rest, Plain x) :
    cleanPath (String.mk (a :: '/' :: b :: c :: '/' :: a :: b :: c :: rest))
      = String.mk (a :: '/' :: b :: c :: '/' :: a :: b :: c :: rest) ∧
    filepathDir (String.mk (a :: '/' :: b :: c :: '/' :: a :: b :: c :: rest))
      = String.mk [a, '/', b, c] ∧
    isRoot (String.mk (a :: '/' :: b :: c :: '/' :: a :: b :: c :: rest)) = false ∧
    cleanPath (String.mk [a, '/', b, c]) = String.mk [a, '/', b, c] ∧
    filepathDir (String.mk [a, '/', b, c]) = String.mk [a] ∧
    isRoot (String.mk [a, '/', b, c]) = false ∧
    parentOfLast [a, '/', b, c] = some [a] ∧
    cleanPath (String.mk [a]) = String.mk [a] ∧
    filepathDir (String.mk [a]) = "." ∧
    isRoot (String.mk [a]) = false ∧
    parentOfLast [a] = none := by
  obtain ⟨h1, h2, h3, h4, h5⟩ := clean_dir2 a b c ha hb hc
  have h0 := clean_file a b c rest ha hb hc hr
  have hrest : ∀ x ∈ (a :: b :: c :: rest).reverse, (fun c => decide (c ≠ '/')) x = true := by
    intro x hx
    simp only [List.mem_reverse, List.mem_cons] at hx
    have : Plain x := by
      rcases hx with h | h | h | h
      · rw [h]; exact ha
      · rw [h]; exact hb
      · rw [h]; exact hc
      · exact hr x h
    simpa using this.1
  have hdir : ((a :: '/' :: b :: c :: '/' :: a :: b :: c :: rest).reverse.dropWhile
      (fun c => decide (c ≠ '/'))).reverse = [a, '/', b, c, '/'] := by
    have hsplit : (a :: '/' :: b :: c :: '/' :: a :: b :: c :: rest).reverse
        = (a :: b :: c :: rest).reverse ++ ['/', c, b, '/', a] := by simp
    rw [hsplit, dropWhile_all _ _ _ hrest]
    simp [List.dropWhile]
  obtain ⟨ha1, ha2⟩ := ha
  obtain ⟨hb1, hb2⟩ := hb
  obtain ⟨hc1, hc2⟩ := hc
  refine ⟨?_, ?_, ?_, ?_, ?_, ?_, ?_, ?_, ?_, ?_, ?_⟩
  · simp [cleanPath, h0]
  · simp only [filepathDir, hdir, h1]
  · simp [isRoot_mk]
  · simp [cleanPath, h2]
  · simp [filepathDir, List.dropWhile, hc1, hb1, h3]
  · simp [isRoot_mk]
  · simp [parentOfLast, List.dropWhile, hc1, hb1]
  · simp [cleanPath, h4]
  · simp [filepathDir, List.dropWhile, ha1, h5]
  · simp [isRoot_mk, ha1, ha2]
  · simp [parentOfLast, List.dropWhile, ha1]

theorem lookupNode_mem (l : List (String × Node)) (p : String) (n : Node)
    (h : lookupNode l p = some n) : (p, n) ∈ l := by
  induction l with
  | nil => simp [lookupNode] at h
  | cons e rest ih =>
    obtain ⟨q, m⟩ := e
    by_cases hq : q = p
    · simp [lookupNode, hq] at h
      simp [hq, h]
    · simp [lookupNode, hq] at h
      exact List.mem_cons_of_mem _ (ih h)

theorem owned_not_file {s : MemFs} (h : s.Owned) (p : String) (data : Bytes)
    (hp : p.length ≠ 45) : lookupNode s.nodes p ≠ some (.file data) := by
  intro hl
  rcases h _ (lookupNode_mem _ _ _ hl) with h1 | h1
  · simp at h1
  · exact hp h1.2

theorem owned_not_dir {s : MemFs} (h : s.Owned) (p : String) (hp : 4 < p.length) :
    lookupNode s.nodes p ≠ some .dir := by
  intro hl
  rcases h _ (lookupNode_mem _ _ _ hl) with h1 | h1
  · have := h1.2
    simp only at this
    omega
  · exact h1.1 rfl

theorem owned_not_blocked {s : MemFs} (h : s.Owned) (path : String)
    (hp : (cleanPath path).length ≤ 45) : s.blocked path = false := by
  rw [blocked_false]
  intro e he data hd
  by_contra hc
  have hl := isAncestor_length _ _ (by simpa using hc)
  rcases h e he with h1 | h1
  · rw [hd] at h1
    simp at h1
  · have := h1.2
    omega

/-- On an owned filesystem, `MkdirAll` of the directory of a key succeeds, leaves
the filesystem owned, and touches no path of forty-five characters. -/
theorem MkdirAll_key (s : MemFs) (hO : s.Owned) (a b c : Char) (ha : Plain a) (hb : Plain b)
    (hc : Plain c) :
    ∃ s1, MemFs.MkdirAll s (String.mk [a, '/', b, c]) = (s1, none) ∧ s1.Owned ∧
      lookupNode s1.nodes (String.mk [a, '/', b, c]) = some .dir ∧
      ∀ q : String, q.length = 45 → lookupNode s1.nodes q = lookupNode s.nodes q := by
  obtain ⟨_, _, _, c4, d4, r4, p4, c1, d1, r1, p1⟩ :=
    paths_of_key a b c [] ha hb hc (by simp)
  have hlen4 : (String.mk [a, '/', b, c]).length = 4 := rfl
  have hlen1 : (String.mk [a]).length = 1 := rfl
  have hne : String.mk [a] ≠ String.mk [a, '/', b, c] := by
    intro h
    have := congrArg String.data h
    simp at this
  have hroot : isRoot "." = true := by decide
  have hcp : cleanPath "." = "." := by decide
  have hb4 : s.blocked (String.mk [a, '/', b, c]) = false :=
    owned_not_blocked hO _ (by rw [c4, hlen4]; decide)
  have hb1 : s.blocked (String.mk [a]) = false :=
    owned_not_blocked hO _ (by rw [c1, hlen1]; decide)
  unfold MemFs.MkdirAll
  rw [hlen4]
  cases h4 : lookupNode s.nodes (String.mk [a, '/', b, c]) with
  | some node =>
    cases node with
    | file data => exact absurd h4 (owned_not_file hO _ data (by rw [hlen4]; decide))
    | dir =>
      refine ⟨s, ?_, hO, h4, fun q _ => rfl⟩
      simp [MemFs.mkdirAllAux, MemFs.stat, c4, r4, h4, hb4]
  | none =>
    cases h1 : lookupNode s.nodes (String.mk [a]) with
    | some node =>
      cases node with
      | file data => exact absurd h1 (owned_not_file hO _ data (by rw [hlen1]; decide))
      | dir =>
        refine ⟨{ nodes := (String.mk [a, '/', b, c], .dir) :: s.nodes }, ?_, ?_, ?_, ?_⟩
        · simp [MemFs.mkdirAllAux, MemFs.stat, MemFs.Mkdir, MemFs.parentError, c4, r4, h4, p4,
            c1, r1, h1, d4, hb4, hb1]
        · intro e he
          simp only [List.mem_cons] at he
          rcases he with he | he
          · rw [he]; left; exact ⟨rfl, by rw [hlen4]⟩
          · exact hO e he
        · simp [lookupNode]
        · intro q hq
          have : String.mk [a, '/', b, c] ≠ q := by
            intro h; rw [← h, hlen4] at hq; omega
          simp [lookupNode, this]
    | none =>
      refine ⟨{ nodes := (String.mk [a, '/', b, c], .dir) :: (String.mk [a], .dir) :: s.nodes },
        ?_, ?_, ?_, ?_⟩
      · simp [MemFs.mkdirAllAux, MemFs.stat, MemFs.Mkdir, MemFs.parentError, c4, r4, h4, p4,
          c1, r1, h1, d4, d1, p1, hroot, hcp, lookupNode, hne, hb4, hb1, blocked_cons_dir]
      · intro e he
        simp only [List.mem_cons] at he
        rcases he with he | he | he
        · rw [he]; left; exact ⟨rfl, by rw [hlen4]⟩
        · rw [he]; left; exact ⟨rfl, by rw [hlen1]; decide⟩
        · exact hO e he
      · simp [lookupNode]
      · intro q hq
        have h4q : String.mk [a, '/', b, c] ≠ q := by
          intro h; rw [← h, hlen4] at hq; omega
        have h1q : String.mk [a] ≠ q := by
          intro h; rw [← h, hlen1] at hq; omega
        simp [lookupNode, h4q, h1q]

theorem keyPath_length (key : Bytes) : (keyPath key).length = 45 := by
  obtain ⟨a, b, c, rest, hk, _, _, _, _, hlen⟩ := keyPath_shape key
  rw [hk]
  show (a :: '/' :: b :: c :: '/' :: a :: b :: c :: rest).length = 45
  simp [hlen]

/-- On an owned filesystem at rest, `Store` returns nil, the filesystem stays
owned, and the path of the key holds the value. -/
theorem Store_owned (f : FileCache MemFs) (key value : Bytes) (hidle : f.Idle)
    (hO : f.disk.Owned) :
    ∃ f1 : FileCache MemFs, Store memFs f key value = .ok (f1, none) ∧ f1.Idle ∧
      f1.disk.Owned ∧ Load memFs f1 key = .ok (f1, some value, true, none) := by
  obtain ⟨a, b, c, rest, hk, ha, hb, hc, hr, _⟩ := keyPath_shape key
  obtain ⟨c45, d45, r45, _, _, _, _, _, _, _, _⟩ := paths_of_key a b c rest ha hb hc hr
  rw [← hk] at c45 d45 r45
  obtain ⟨s1, hmk, hO1, hdir, hsame⟩ := MkdirAll_key f.disk hO a b c ha hb hc
  rw [← d45] at hmk hdir
  have h45 := keyPath_length key
  have hb45 : s1.blocked (keyPath key) = false :=
    owned_not_blocked hO1 _ (by rw [c45, h45])
  have hb4 : s1.blocked (filepathDir (keyPath key)) = false := by
    apply owned_not_blocked hO1
    rw [d45]
    obtain ⟨_, _, _, c4, _⟩ := paths_of_key a b c [] ha hb hc (by simp)
    rw [c4]
    show [a, '/', b, c].length ≤ 45
    simp
  have hwr : ∃ s2, MemFs.WriteFile s1 (keyPath key) value = (s2, none) ∧ s2.Owned := by
    cases hl : lookupNode s1.nodes (keyPath key) with
    | none =>
      refine ⟨{ nodes := (keyPath key, .file value) :: s1.nodes }, ?_, ?_⟩
      · have hroot4 : isRoot (cleanPath (filepathDir (keyPath key))) = false := by
          rw [d45]
          obtain ⟨_, _, _, c4, _, r4, _⟩ := paths_of_key a b c [] ha hb hc (by simp)
          rw [c4]; exact r4
        have hc4 : cleanPath (filepathDir (keyPath key)) = filepathDir (keyPath key) := by
          rw [d45]
          obtain ⟨_, _, _, c4, _⟩ := paths_of_key a b c [] ha hb hc (by simp)
          exact c4
        simp [MemFs.WriteFile, MemFs.stat, MemFs.parentError, c45, r45, hl, hroot4, hc4, hdir,
          hb45, hb4]
      · intro e he
        simp only [List.mem_cons] at he
        rcases he with he | he
        · rw [he]; right; exact ⟨by simp, h45⟩
        · exact hO1 e he
    | some node =>
      cases node with
      | dir => exact absurd hl (owned_not_dir hO1 _ (by rw [h45]; decide))
      | file data =>
        refine ⟨{ nodes := (keyPath key, .file value) :: eraseNode s1.nodes (keyPath key) },
          ?_, ?_⟩
        · simp [MemFs.WriteFile, MemFs.stat, c45, r45, hl, hb45]
        · intro e he
          simp only [List.mem_cons] at he
          rcases he with he | he
          · rw [he]; right; exact ⟨by simp, h45⟩
          · exact hO1 e (eraseNode_subset _ _ _ he)
  obtain ⟨s2, hwr2, hO2⟩ := hwr
  have hs : Store memFs f key value = .ok ({ (getScopedLocks f key).1 with disk := s2 }, none) := by
    rw [Store_eq memFs f key value hidle]
    simp only [memFs, hmk, hwr2]
  refine ⟨_, hs, Store_idle memFs f key value hidle _ _ hs, hO2, ?_⟩
  obtain ⟨hroot, hblk, hfile⟩ := WriteFile_ok s1 s2 (keyPath key) value hwr2
  exact Load_file _ key value hroot hblk hfile

/-- On an owned filesystem at rest, `Delete` returns nil, the filesystem stays
owned, and the path of the key holds nothing. -/
theorem Delete_owned (f : FileCache MemFs) (key : Bytes) (hidle : f.Idle) (hO : f.disk.Owned) :
    ∃ f1 : FileCache MemFs, Delete memFs f key = .ok (f1, none) ∧ f1.Idle ∧ f1.disk.Owned ∧
      Load memFs f1 key = .ok (f1, none, false, none) := by
  obtain ⟨a, b, c, rest, hk, ha, hb, hc, hr, _⟩ := keyPath_shape key
  obtain ⟨c45, _, r45, _⟩ := paths_of_key a b c rest ha hb hc hr
  rw [← hk] at c45 r45
  have h45 := keyPath_length key
  have hroot : isRoot (cleanPath (keyPath key)) = false := by rw [c45]; exact r45
  have hblk : f.disk.blocked (keyPath key) = false :=
    owned_not_blocked hO _ (by rw [c45, h45])
  have hd := Delete_eq memFs f key hidle
  cases hl : lookupNode f.disk.nodes (keyPath key) with
  | none =>
    have hrm : memFs.Remove f.disk (keyPath key)
        = (f.disk, some (pathError "remove" (keyPath key) ErrNotExist)) :=
      Remove_absent f.disk (keyPath key) hroot hblk (by rw [c45]; exact hl)
    simp only [hrm, errorsIs_pathError, if_true] at hd
    refine ⟨_, hd, Delete_idle memFs f key hidle _ _ hd, hO, ?_⟩
    exact Load_absent _ key hroot hblk (by rw [c45]; exact hl)
  | some node =>
    cases node with
    | dir => exact absurd hl (owned_not_dir hO _ (by rw [h45]; decide))
    | file data =>
      have hrm : memFs.Remove f.disk (keyPath key)
          = ({ nodes := eraseNode f.disk.nodes (cleanPath (keyPath key)) }, none) :=
        Remove_file f.disk (keyPath key) data hroot hblk (by rw [c45]; exact hl)
      simp only [hrm] at hd
      refine ⟨_, hd, Delete_idle memFs f key hidle _ _ hd, ?_, ?_⟩
      · intro e he
        exact hO e (eraseNode_subset _ _ _ he)
      · exact Load_absent _ key hroot (blocked_erase f.disk _ _ hblk) (lookupNode_eraseNode _ _)

/-- The in-memory filesystem is not changed by a `Load`. -/
theorem Load_memFs (f : FileCache MemFs) (key : Bytes) :
    ∃ r, Load memFs f key = .ok (f, r) := by
  rw [Load_eq]
  cases ho : memFs.Open f.disk (keyPath key) with
  | mk d res =>
    have hd : d = f.disk := by
      simp only [memFs, MemFs.Open] at ho
      cases hst : f.disk.stat (keyPath key) with
      | none => simp [hst] at ho; exact ho.1.symm
      | some node => simp [hst] at ho; exact ho.1.symm
    subst hd
    cases res with
    | error err => exact ⟨_, rfl⟩
    | ok file =>
      simp only
      cases hr : memFs.ReadAll f.disk file with
      | mk d1 r1 =>
        obtain ⟨content, e⟩ := r1
        have hd1 : d1 = f.disk := by
          simp only [memFs, MemFs.ReadAll] at hr
          cases hn : file.node with
          | file data => simp [hn] at hr; exact hr.1.symm
          | dir => simp [hn] at hr; exact hr.1.symm
        subst hd1
        cases e with
        | none => exact ⟨_, rfl⟩
        | some err => exact ⟨_, rfl⟩

/-- Every history of calls on a cache over an owned filesystem returns, and leaves
the cache at rest over an owned filesystem. -/
theorem runOps_owned (ops : List CacheOp) :
    ∀ f : FileCache MemFs, f.Idle → f.disk.Owned →
      ∃ f1, runOps f ops = .ok f1 ∧ f1.Idle ∧ f1.disk.Owned := by
  induction ops with
  | nil => intro f hi hO; exact ⟨f, rfl, hi, hO⟩
  | cons op ops ih =>
    intro f hi hO
    cases op with
    | store key value =>
      obtain ⟨f1, hs, hi1, hO1, _⟩ := Store_owned f key value hi hO
      obtain ⟨f2, h2, hi2, hO2⟩ := ih f1 hi1 hO1
      exact ⟨f2, by simp only [runOps, hs, h2], hi2, hO2⟩
    | load key =>
      obtain ⟨r, hl⟩ := Load_memFs f key
      obtain ⟨f2, h2, hi2, hO2⟩ := ih f hi hO
      exact ⟨f2, by simp only [runOps, hl, h2], hi2, hO2⟩
    | delete key =>
      obtain ⟨f1, hs, hi1, hO1, _⟩ := Delete_owned f key hi hO
      obtain ⟨f2, h2, hi2, hO2⟩ := ih f1 hi1 hO1
      exact ⟨f2, by simp only [runOps, hs, h2], hi2, hO2⟩

theorem empty_owned : MemFs.empty.Owned := by
  intro e he
  simp [MemFs.empty] at he

/-- In every history of calls on a new cache over the empty filesystem, the calls
return and the next `Store` returns nil, the `Load` after it returns the value, the
`Delete` after that returns nil, as does a second one, and the `Load` after it
misses. -/
theorem history_spec (ops : List CacheOp) (key value : Bytes) :
    ∃ f f1 f2 f3 : FileCache MemFs, runOps (New MemFs.empty) ops = .ok f ∧
      Store memFs f key value = .ok (f1, none) ∧
      Load memFs f1 key = .ok (f1, some value, true, none) ∧
      Delete memFs f1 key = .ok (f2, none) ∧
      Delete memFs f2 key = .ok (f3, none) ∧
      Load memFs f3 key = .ok (f3, none, false, none) := by
  obtain ⟨f, hf, hi, hO⟩ := runOps_owned ops (New MemFs.empty) (New_idle _) empty_owned
  obtain ⟨f1, hs, hi1, hO1, hl1⟩ := Store_owned f key value hi hO
  obtain ⟨f2, hd, hi2, hO2, _⟩ := Delete_owned f1 key hi1 hO1
  obtain ⟨f3, hd3, _, _, hl3⟩ := Delete_owned f2 key hi2 hO2
  exact ⟨f, f1, f2, f3, hf, hs, hl1, hd, hd3, hl3⟩

/-! ## The cache under a regular file

The key `"a"` has the path `8/6f/86f7…`. On a filesystem whose root holds a regular
file `8`, no path below `8` can be resolved: every call fails with ENOTDIR. -/

set_option maxRecDepth 100000 in
theorem Delete_under_file :
    Delete memFs (New { nodes := [("8", .file [])] }) [97]
      = .ok ({ disk := { nodes := [("8", .file [])] }, locks := some [([97], 0)],
               mutexes := [false] },
             some (pathError "remove" "8/6f/86f7e437faa5a7fce15d1ddcb9eaeaea377667b8"
               (.new "not a directory"))) := by
  rfl

set_option maxRecDepth 100000 in
theorem Load_under_file :
    Load memFs (New { nodes := [("8", .file [])] }) [97]
      = .ok (New { nodes := [("8", .file [])] }, none, false,
             some (pathError "open" "8/6f/86f7e437faa5a7fce15d1ddcb9eaeaea377667b8"
               (.new "not a directory"))) := by
  rfl

set_option maxRecDepth 100000 in
theorem Store_under_file :
    Store memFs (New { nodes := [("8", .file [])] }) [97] [1, 2, 3]
      = .ok ({ disk := { nodes := [("8", .file [])] }, locks := some [([97], 0)],
               mutexes := [false] },
             some (pathError "mkdir" "8" (.new "not a directory"))) := by
  rfl

/-! ## Properties: the contract of the cache -/

/-- C1: on the in-memory filesystem, for every key and value (the empty ones
included) and a cache at rest: when `MkdirAll` and `WriteFile` succeed, whatever
the filesystem held, `Store(k, v)` returns nil and the following `Load(k)` returns
`(v, true, nil)`; and they do succeed after every history of calls on a new cache
over the empty filesystem, earlier stores under the same key included. -/
theorem Store_Load_roundtrip :
    (∀ (f : FileCache MemFs) (key value : Bytes), f.Idle →
      (MemFs.MkdirAll f.disk (filepathDir (keyPath key))).2 = none →
      (MemFs.WriteFile (MemFs.MkdirAll f.disk (filepathDir (keyPath key))).1
        (keyPath key) value).2 = none →
      getFileName key = .ok (keyPath key) ∧
      ∃ f1 : FileCache MemFs, Store memFs f key value = .ok (f1, none) ∧ f1.Idle ∧
        Load memFs f1 key = .ok (f1, some value, true, none)) ∧
    (∀ (ops : List CacheOp) (key value : Bytes),
      ∃ f f1 : FileCache MemFs, runOps (New MemFs.empty) ops = .ok f ∧
        Store memFs f key value = .ok (f1, none) ∧
        Load memFs f1 key = .ok (f1, some value, true, none)) := by
  refine ⟨Store_Load_of_success, ?_⟩
  intro ops key value
  obtain ⟨f, f1, _, _, hf, hs, hl, _⟩ := history_spec ops key value
  exact ⟨f, f1, hf, hs, hl⟩

set_option maxRecDepth 100000 in
/-- Witness of C1: the key `"a"` and the value `[1, 2, 3]` on the empty filesystem. -/
theorem Store_Load_roundtrip_witness :
    ∃ f1 : FileCache MemFs, Store memFs (New MemFs.empty) [97] [1, 2, 3] = .ok (f1, none) ∧
      f1.Idle ∧ Load memFs f1 [97] = .ok (f1, some [1, 2, 3], true, none) :=
  (Store_Load_roundtrip.1 (New MemFs.empty) [97] [1, 2, 3] (New_idle _) (by decide)
    (by decide)).2

/-- C4: on the in-memory filesystem, for every key and value and a cache at rest:
when `MkdirAll` and `WriteFile` succeed, `Store(k, v1)` returns nil, the following
`Delete(k)` returns nil and the `Load(k)` after it returns `(nil, false, nil)`; and
they do succeed after every history of calls on a new cache over the empty
filesystem. -/
theorem Store_Delete_Load :
    (∀ (f : FileCache MemFs) (key v1 : Bytes), f.Idle →
      (MemFs.MkdirAll f.disk (filepathDir (keyPath key))).2 = none →
      (MemFs.WriteFile (MemFs.MkdirAll f.disk (filepathDir (keyPath key))).1
        (keyPath key) v1).2 = none →
      ∃ f1 f2 : FileCache MemFs, Store memFs f key v1 = .ok (f1, none) ∧
        Delete memFs f1 key = .ok (f2, none) ∧ f2.Idle ∧
        Load memFs f2 key = .ok (f2, none, false, none)) ∧
    (∀ (ops : List CacheOp) (key v1 : Bytes),
      ∃ f f1 f2 : FileCache MemFs, runOps (New MemFs.empty) ops = .ok f ∧
        Store memFs f key v1 = .ok (f1, none) ∧
        Delete memFs f1 key = .ok (f2, none) ∧
        Load memFs f2 key = .ok (f2, none, false, none)) := by
  refine ⟨Store_Delete_Load_of_success, ?_⟩
  intro ops key v1
  obtain ⟨f, hf, hi, hO⟩ := runOps_owned ops (New MemFs.empty) (New_idle _) empty_owned
  obtain ⟨f1, hs, hi1, hO1, _⟩ := Store_owned f key v1 hi hO
  obtain ⟨f2, hd, _, _, hl⟩ := Delete_owned f1 key hi1 hO1
  exact ⟨f, f1, f2, hf, hs, hd, hl⟩

set_option maxRecDepth 100000 in
/-- Witness of C4: the key `"a"` and the value `[1, 2, 3]` on the empty filesystem. -/
theorem Store_Delete_Load_witness :
    ∃ f1 f2 : FileCache MemFs, Store memFs (New MemFs.empty) [97] [1, 2, 3] = .ok (f1, none) ∧
      Delete memFs f1 [97] = .ok (f2, none) ∧ f2.Idle ∧
      Load memFs f2 [97] = .ok (f2, none, false, none) :=
  Store_Delete_Load.1 (New MemFs.empty) [97] [1, 2, 3] (New_idle _) (by decide) (by decide)

/-- C5: for every filesystem, `Delete` on a cache at rest returns an error exactly
when removing the path of the key fails with an error that is not a not-exist
error, and then returns that very error. On the in-memory filesystem: deleting a
key whose path holds nothing returns nil, and deleting twice in a row a key whose
path holds no directory returns nil both times, provided no ancestor of the path is
a regular file; under a regular file the removal fails with ENOTDIR and `Delete`
returns that error. After every history of calls on a new cache over the empty
filesystem, whether the key was stored or not, deleting twice returns nil both
times. -/
theorem Delete_spec :
    (∀ (σ File : Type) (fs : Fs σ File) (f : FileCache σ) (key : Bytes), f.Idle →
      getFileName key = .ok (keyPath key) ∧
      ∃ (f1 : FileCache σ) (ret : Option GoError), Delete fs f key = .ok (f1, ret) ∧ f1.Idle ∧
        ((∃ e, ret = some e) ↔
          ∃ e, (fs.Remove f.disk (keyPath key)).2 = some e ∧ errorsIs e ErrNotExist = false) ∧
        ∀ e, ret = some e → (fs.Remove f.disk (keyPath key)).2 = some e) ∧
    (∀ (g : FileCache MemFs) (key : Bytes), g.Idle → g.disk.blocked (keyPath key) = false →
      g.disk.stat (keyPath key) = none →
      ∃ g1 : FileCache MemFs, Delete memFs g key = .ok (g1, none)) ∧
    (∀ (g : FileCache MemFs) (key : Bytes), g.Idle → g.disk.blocked (keyPath key) = false →
      g.disk.stat (keyPath key) ≠ some .dir →
      ∃ g1 g2 : FileCache MemFs, Delete memFs g key = .ok (g1, none) ∧
        Delete memFs g1 key = .ok (g2, none)) ∧
    (∀ (g : FileCache MemFs) (key : Bytes), g.Idle → g.disk.blocked (keyPath key) = true →
      ∃ g1 : FileCache MemFs, Delete memFs g key
          = .ok (g1, some (pathError "remove" (keyPath key) (.new "not a directory"))) ∧
        g1.disk = g.disk) ∧
    (∀ (ops : List CacheOp) (key : Bytes),
      ∃ g g1 g2 : FileCache MemFs, runOps (New MemFs.empty) ops = .ok g ∧
        Delete memFs g key = .ok (g1, none) ∧ Delete memFs g1 key = .ok (g2, none)) := by
  refine ⟨Delete_cases.1, Delete_cases.2.1, Delete_cases.2.2, ?_, ?_⟩
  · intro g key hidle hblk
    obtain ⟨a, b, c, rest, hk, ha, hb, hc, hr, _⟩ := keyPath_shape key
    obtain ⟨c45, _, r45, _⟩ := paths_of_key a b c rest ha hb hc hr
    rw [← hk] at c45 r45
    have hroot : isRoot (cleanPath (keyPath key)) = false := by rw [c45]; exact r45
    have hd := Delete_eq memFs g key hidle
    have hrm : memFs.Remove g.disk (keyPath key)
        = (g.disk, some (pathError "remove" (keyPath key) (.new "not a directory"))) :=
      Remove_blocked g.disk (keyPath key) hroot hblk
    simp only [hrm, errorsIs_notDir] at hd
    exact ⟨_, hd, rfl⟩
  · intro ops key
    obtain ⟨g, hg, hi, hO⟩ := runOps_owned ops (New MemFs.empty) (New_idle _) empty_owned
    obtain ⟨g1, hd1, hi1, hO1, _⟩ := Delete_owned g key hi hO
    obtain ⟨g2, hd2, _⟩ := Delete_owned g1 key hi1 hO1
    exact ⟨g, g1, g2, hg, hd1, hd2⟩

set_option maxRecDepth 100000 in
/-- Witness of C5: deleting twice the key `"b"`, never stored, on the empty filesystem. -/
theorem Delete_spec_witness :
    ∃ g1 g2 : FileCache MemFs, Delete memFs (New MemFs.empty) [98] = .ok (g1, none) ∧
      Delete memFs g1 [98] = .ok (g2, none) :=
  Delete_spec.2.2.1 (New MemFs.empty) [98] (New_idle _) (by decide) (by decide)

end Filebrowser
